import Mathlib

/-!
# Verification of the `endio_bit` bit-stream I/O library

A shallow embedding of the crate's two wrappers, `BitReader` and `BitWriter`
(src/read.rs, src/write.rs), together with the `BitEndianness` policy
(src/endian.rs), and proofs about the embedded operations.

Modelling conventions:
* Bytes are `Nat` values; every stored byte is `< 256` (u8 arithmetic is
  mirrored with explicit `% 256` wherever the Rust result wraps).
* Rust shifts `<<`/`>>` on `u8` with a shift amount `≥ 8` are an arithmetic
  overflow: a panic under `cargo test` (debug) semantics.  Such shifts,
  `assert!` failures and `panic!` are modelled as the `Err.panicked` outcome.
* Fallible operations are state transformers `σ → Except Err α × σ`: on an
  error the Rust value `self` still exists, so the state is always returned.
* The underlying byte source is a `List Nat` (reading past the end is the
  `read_exact` "failed to fill whole buffer" I/O error).  The underlying
  byte sink records the bytes it received and the number of `flush` calls it
  got, and can be configured to fail every write with a given error code.
-/

namespace EndioBit

/-- Outcome of a fallible Rust operation: an I/O error propagated from the
underlying reader/writer (carrying an identifying code), or a panic
(failed `assert!`, explicit `panic!`, or an overflowing `u8` shift). -/
inductive Err where
  | ioError (code : Nat)
  | panicked
deriving DecidableEq, Repr

/-- Error code used for the end-of-stream error produced by `read_exact`. -/
def eofCode : Nat := 0

/-- Rust `u8` left shift under debug semantics: wraps the value modulo 256,
panics when the shift amount is not below the bit width. -/
def shlU8 (v b : Nat) : Except Err Nat :=
  if b < 8 then .ok ((v <<< b) % 256) else .error .panicked

/-- Rust `u8` right shift under debug semantics: panics when the shift
amount is not below the bit width. -/
def shrU8 (v b : Nat) : Except Err Nat :=
  if b < 8 then .ok (v >>> b) else .error .panicked

/-- The two bit-endianness policies (`BigEndian`/`BitEndianness::BE` reads
and writes most significant bits first, `LittleEndian`/`LE` least
significant bits first). -/
inductive Endianness where
  | be
  | le
deriving DecidableEq, Repr

/-- `BitEndianness::shift_msb`: shifts towards the most significant bit
(`val << by` for `BigEndian`, `val >> by` for `LittleEndian`). -/
def shift_msb : Endianness → Nat → Nat → Except Err Nat
  | .be, v, b => shlU8 v b
  | .le, v, b => shrU8 v b

/-- `BitEndianness::shift_lsb`: shifts towards the least significant bit
(`val >> by` for `BigEndian`, `val << by` for `LittleEndian`). -/
def shift_lsb : Endianness → Nat → Nat → Except Err Nat
  | .be, v, b => shrU8 v b
  | .le, v, b => shlU8 v b

/-- `BitEndianness::align_right`: the identity for `BigEndian`,
`Self::shift_msb(val, 8 - count)` for `LittleEndian`. -/
def align_right (e : Endianness) (v count : Nat) : Except Err Nat :=
  match e with
  | .be => .ok v
  | .le => shift_msb .le v (8 - count)

/-- State transformer with Rust-style fallibility: the state survives an
error, mirroring that `self` is still live after a method returns `Err`. -/
def IOst (σ : Type) (α : Type) : Type := σ → Except Err α × σ

instance : Monad (IOst σ) where
  pure a := fun s => (.ok a, s)
  bind x f := fun s =>
    match x s with
    | (.ok a, s') => f a s'
    | (.error e, s') => (.error e, s')

/-- Read the current state. -/
def getSt : IOst σ σ := fun s => (.ok s, s)

/-- Replace the current state. -/
def setSt (s : σ) : IOst σ Unit := fun _ => (.ok (), s)

/-- Lift a pure fallible result into the state transformer. -/
def liftE (r : Except Err α) : IOst σ α := fun s => (r, s)

/-- Abort with an error, keeping the state. -/
def throwErr (e : Err) : IOst σ α := liftE (.error e)

/-- Rust `assert!`: a no-op when the condition holds, a panic otherwise. -/
def rustAssert (c : Prop) [Decidable c] : IOst σ Unit :=
  if c then pure () else throwErr .panicked

/-! ## Unfolding equations for the monadic combinators -/

theorem bind_apply (x : IOst σ α) (f : α → IOst σ β) (s : σ) :
    (x >>= f) s =
      match x s with
      | (.ok a, s') => f a s'
      | (.error e, s') => (.error e, s') := rfl

theorem pure_apply (a : α) (s : σ) : (pure a : IOst σ α) s = (.ok a, s) := rfl

theorem getSt_apply (s : σ) : (getSt : IOst σ σ) s = (.ok s, s) := rfl

theorem setSt_apply (s s' : σ) : (setSt s' : IOst σ Unit) s = (.ok (), s') := rfl

theorem liftE_apply (r : Except Err α) (s : σ) : (liftE r : IOst σ α) s = (r, s) := rfl

/-! ## BitReader (src/read.rs) -/

namespace BitReader

/-- The state of a `BitReader<E, R>`: the underlying reader (modelled as the
list of bytes still to be delivered), the offset of remaining bits in a byte
(`0 <= bit_offset < 8`), and the storage for remaining bits after an
unaligned read operation. -/
structure RState where
  src : List Nat
  bit_offset : Nat
  bit_buffer : Nat
deriving DecidableEq, Repr

/-- `BitReader::new(inner)`: `bit_offset = 0`, `bit_buffer = 0`. -/
def new (inner : List Nat) : RState :=
  { src := inner, bit_offset := 0, bit_buffer := 0 }

/-- `BitReader::is_aligned`: whether the reader is aligned to the byte
boundary. -/
def is_aligned (s : RState) : Bool :=
  s.bit_offset == 0

/-- `BitReader::align`: discard a partial byte. -/
def align (s : RState) : RState :=
  { s with bit_offset := 0, bit_buffer := 0 }

/-- `BitReader::get_mut`: panics if the reader is not aligned, otherwise
hands out the underlying reader (the state is untouched). -/
def get_mut : IOst RState (List Nat) := do
  let s ← getSt
  if !(is_aligned s) then
    throwErr .panicked
  else
    pure s.src

/-- `BitReader::into_inner`: returns the underlying reader, losing any
partially read byte. -/
def into_inner (s : RState) : List Nat :=
  s.src

/-- `BitReader::fill_buffer`: `read_exact` of a single byte into
`bit_buffer`.  On an empty source `read_exact` fails with an I/O error and
`bit_buffer` is left untouched. -/
def fill_buffer : IOst RState Unit := fun s =>
  match s.src with
  | [] => (.error (.ioError eofCode), s)
  | b :: rest => (.ok (), { s with src := rest, bit_buffer := b })

/-- `BitReader::read_bit` for both endianness impls.  BE tests
`bit_buffer & (0x80 >> bit_offset)`, LE tests
`bit_buffer & (0x01 << bit_offset)`; both then advance the offset with the
`if bit_offset == 7 { 0 } else { bit_offset + 1 }` step. -/
def read_bit (E : Endianness) : IOst RState Bool := do
  let s ← getSt
  if is_aligned s then
    fill_buffer
  let s ← getSt
  let mask ← liftE (match E with
    | .be => shrU8 0x80 s.bit_offset
    | .le => shlU8 0x01 s.bit_offset)
  let val := decide (s.bit_buffer &&& mask ≠ 0)
  setSt { s with bit_offset := if s.bit_offset == 7 then 0 else s.bit_offset + 1 }
  pure val

/-- `BitReader<BE, R>::read_bits` (src/read.rs lines 170-183). -/
def read_bits_be (count : Nat) : IOst RState Nat := do
  rustAssert (count ≤ 8)
  let s ← getSt
  if is_aligned s then
    fill_buffer
  let s ← getSt
  let res ← liftE (shlU8 s.bit_buffer s.bit_offset)
  let res ←
    if 8 - s.bit_offset < count then do
      fill_buffer
      let s2 ← getSt
      let hi ← liftE (shrU8 s2.bit_buffer (8 - s2.bit_offset))
      pure (res ||| hi)
    else
      pure res
  let res ← liftE (shrU8 res (8 - count))
  let s3 ← getSt
  setSt { s3 with bit_offset := (s3.bit_offset + count) % 8 }
  pure res

/-- `BitReader<LE, R>::read_bits` (src/read.rs lines 229-246); the signed
`needed_extra_bits = (bit_offset + count) as i8 - 8` is carried as an `Int`. -/
def read_bits_le (count : Nat) : IOst RState Nat := do
  rustAssert (count ≤ 8)
  let s ← getSt
  if is_aligned s then
    fill_buffer
  let s ← getSt
  let needed_extra_bits : Int := (s.bit_offset : Int) + (count : Int) - 8
  let res ←
    if needed_extra_bits ≤ 0 then
      liftE (shlU8 s.bit_buffer (-needed_extra_bits).toNat)
    else do
      let res ← liftE (shrU8 s.bit_buffer needed_extra_bits.toNat)
      fill_buffer
      let s2 ← getSt
      let hi ← liftE (shlU8 s2.bit_buffer (8 - needed_extra_bits).toNat)
      pure (res ||| hi)
  let res ← liftE (shrU8 res (8 - count))
  let s3 ← getSt
  setSt { s3 with bit_offset := (s3.bit_offset + count) % 8 }
  pure res

/-- Dispatch to the endianness-specific `read_bits` impl. -/
def read_bits : Endianness → Nat → IOst RState Nat
  | .be => read_bits_be
  | .le => read_bits_le

/-- `inner.read(buf)` for the modelled byte source: delivers
`min buf.len() src.length` bytes at the front of `buf`, leaves the rest of
`buf` untouched, and never fails.  Returns the count and the buffer. -/
def source_read (buf : List Nat) : IOst RState (Nat × List Nat) := fun s =>
  let n := min buf.length s.src.length
  (.ok (n, s.src.take n ++ buf.drop n), { s with src := s.src.drop n })

/-- The `for b in buf.iter_mut()` loop of the BE `Read` impl: every slot of
the buffer is replaced by `last_byte << bit_offset | current_byte >> (8 -
bit_offset)`; returns the rewritten buffer and the final `current_byte`.
Shift amounts are below 8 on the unaligned path, so plain arithmetic is
used. -/
def shift_loop_be (o : Nat) : List Nat → Nat → List Nat × Nat
  | [], last => ([], last)
  | b :: rest, last =>
    let nb := ((last <<< o) % 256) ||| (b >>> (8 - o))
    let (rest', last') := shift_loop_be o rest b
    (nb :: rest', last')

/-- The same loop for the LE `Read` impl:
`last_byte >> bit_offset | current_byte << (8 - bit_offset)`. -/
def shift_loop_le (o : Nat) : List Nat → Nat → List Nat × Nat
  | [], last => ([], last)
  | b :: rest, last =>
    let nb := (last >>> o) ||| ((b <<< (8 - o)) % 256)
    let (rest', last') := shift_loop_le o rest b
    (nb :: rest', last')

/-- The `Read for BitReader` impls (src/read.rs lines 256-297): one
underlying read, then — when unaliged — the in-place shift loop over the
whole buffer (note: the source iterates over all of `buf`, not only the
first `count_read` slots), and `bit_buffer` is set to the final
`current_byte`.  Returns `(count_read, buf)`. -/
def read (E : Endianness) (buf : List Nat) : IOst RState (Nat × List Nat) := do
  let r ← source_read buf
  let count_read := r.1
  let buf := r.2
  let s ← getSt
  if is_aligned s then
    pure (count_read, buf)
  else
    let p := match E with
      | .be => shift_loop_be s.bit_offset buf s.bit_buffer
      | .le => shift_loop_le s.bit_offset buf s.bit_buffer
    setSt { s with bit_buffer := p.2 }
    pure (count_read, p.1)

end BitReader

/-! ## BitWriter (src/write.rs) -/

namespace BitWriter

/-- The underlying byte sink: the bytes it has received, whether every write
is to fail (with the given I/O error code), and how many `flush` calls it
has received. -/
structure Sink where
  bytes : List Nat
  fail : Option Nat
  flushes : Nat
deriving DecidableEq, Repr

/-- The state of a `BitWriter<E, W>`: the sink held in an `Option` slot so
it can be relinquished by `into_inner`, the offset of remaining bits
(`0 <= bit_offset < 8`), the storage for remaining bits after an unaligned
write, and the capacity of the pre-allocated staging buffer used by the
`Write` impl (its contents are overwritten before every use, so only the
length is modelled). -/
structure WState where
  inner : Option Sink
  bit_offset : Nat
  bit_buffer : Nat
  cap : Nat
deriving DecidableEq, Repr

/-- `BitWriter::with_capacity(capacity, inner)`. -/
def with_capacity (capacity : Nat) (inner : Sink) : WState :=
  { inner := some inner, bit_offset := 0, bit_buffer := 0, cap := capacity }

/-- `BitWriter::new(inner)`: capacity 16. -/
def new (inner : Sink) : WState :=
  with_capacity 16 inner

/-- `BitWriter::is_aligned`. -/
def is_aligned (w : WState) : Bool :=
  w.bit_offset == 0

/-- A `write` call on the wrapped sink (through `get_mut_unchecked`, whose
`Option::unwrap` panics when the sink was already taken).  The modelled
sink either fails with its configured error code or accepts all the bytes. -/
def sink_write (data : List Nat) : IOst WState Nat := fun w =>
  match w.inner with
  | none => (.error .panicked, w)
  | some k =>
    match k.fail with
    | some c => (.error (.ioError c), w)
    | none => (.ok data.length, { w with inner := some { k with bytes := k.bytes ++ data } })

/-- A `flush` call on the wrapped sink. -/
def sink_flush : IOst WState Unit := fun w =>
  match w.inner with
  | none => (.error .panicked, w)
  | some k => (.ok (), { w with inner := some { k with flushes := k.flushes + 1 } })

/-- `BitWriter::flush_buffer`: write `bit_buffer` as a single byte to the
sink, then clear `bit_buffer` (the clearing is skipped when the write
fails). -/
def flush_buffer : IOst WState Unit := do
  let w ← getSt
  let _ ← sink_write [w.bit_buffer]
  let w ← getSt
  setSt { w with bit_buffer := 0 }

/-- `BitWriter::align`: when not aligned, flush the partial byte and zero
the offset. -/
def align : IOst WState Unit := do
  let w ← getSt
  if !(is_aligned w) then
    flush_buffer
    let w ← getSt
    setSt { w with bit_offset := 0 }

/-- `BitWriter::get_mut`: panics when the writer is not aligned, otherwise
hands out the sink (the state is untouched). -/
def get_mut : IOst WState Sink := do
  let w ← getSt
  if !(is_aligned w) then
    throwErr .panicked
  else
    match w.inner with
    | some k => pure k
    | none => throwErr .panicked

/-- `BitWriter::into_inner` (src/write.rs lines 145-150): run `align`; on
success take and return the sink, on failure return `IntoInnerError(self,
e)` carrying the writer as `align` left it together with the error. -/
def into_inner (w : WState) : Except (WState × Err) Sink :=
  match align w with
  | (.ok _, w') =>
    match w'.inner with
    | some k => .ok k
    | none => .error (w', .panicked)
  | (.error e, w') => .error (w', e)

/-- `BitWriter::write_bit` (src/write.rs lines 181-190): set the bit at
position `bit_offset` under the policy, advance the offset modulo 8, and
flush the buffer when the offset rolled over to 0. -/
def write_bit (E : Endianness) (bit : Bool) : IOst WState Unit := do
  if bit then
    let w ← getSt
    let m ← liftE (shift_msb E 0xff 7)
    let mask ← liftE (shift_lsb E m w.bit_offset)
    setSt { w with bit_buffer := w.bit_buffer ||| mask }
  let w ← getSt
  setSt { w with bit_offset := (w.bit_offset + 1) % 8 }
  let w ← getSt
  if is_aligned w then
    flush_buffer

/-- `BitWriter::write_bits` (src/write.rs lines 221-236). -/
def write_bits (E : Endianness) (bits count : Nat) : IOst WState Unit := do
  rustAssert (count ≤ 8)
  let w ← getSt
  let start := w.bit_offset
  let endp := start + count
  let bits ← liftE (shlU8 bits (8 - count))
  let bits ← liftE (align_right E bits count)
  let low ← liftE (shift_lsb E bits start)
  setSt { w with bit_buffer := w.bit_buffer ||| low }
  if 8 ≤ endp then
    flush_buffer
  if 8 < endp then
    let hi ← liftE (shift_msb E bits (8 - start))
    let w2 ← getSt
    setSt { w2 with bit_buffer := hi }
  let w3 ← getSt
  setSt { w3 with bit_offset := endp % 8 }

/-- Pure variant of `shift_msb` for the `Write` impl loop, where every
shift amount is below 8. -/
def shift_msbP : Endianness → Nat → Nat → Nat
  | .be, v, b => (v <<< b) % 256
  | .le, v, b => v >>> b

/-- Pure variant of `shift_lsb` for the `Write` impl loop. -/
def shift_lsbP : Endianness → Nat → Nat → Nat
  | .be, v, b => v >>> b
  | .le, v, b => (v <<< b) % 256

/-- The `for (byte, new) in buf.iter().zip(self.buffer.iter_mut())` loop of
the `Write` impl: each staged byte is
`shift_msb(last_byte, 8 - bit_offset) | shift_lsb(*byte, bit_offset)`;
returns the staged bytes and the final `last_byte`. -/
def stage_loop (E : Endianness) (o : Nat) : List Nat → Nat → List Nat × Nat
  | [], last => ([], last)
  | b :: rest, last =>
    let nb := shift_msbP E last (8 - o) ||| shift_lsbP E b o
    let (rest', last') := stage_loop E o rest b
    (nb :: rest', last')

/-- The `Write::write` impl (src/write.rs lines 249-261): aligned writes
delegate to the sink; unaligned writes stage `min buf.len() capacity`
shifted bytes, update `bit_buffer` from the final `last_byte`, and issue a
single sink write of the staged bytes. -/
def write (E : Endianness) (buf : List Nat) : IOst WState Nat := do
  let w ← getSt
  if is_aligned w then
    sink_write buf
  else
    let last0 := shift_lsbP E w.bit_buffer (8 - w.bit_offset)
    let p := stage_loop E w.bit_offset (buf.take (min buf.length w.cap)) last0
    setSt { w with bit_buffer := shift_msbP E p.2 (8 - w.bit_offset) }
    sink_write p.1

/-- The `Write::flush` impl (src/write.rs lines 263-268): flush the partial
byte when unaligned (note: `bit_offset` is not reset), then flush the
sink. -/
def flush : IOst WState Unit := do
  let w ← getSt
  if !(is_aligned w) then
    flush_buffer
  sink_flush

end BitWriter

/-! ## Bit-sequence semantics

The stream of bits carried by a byte, in the order the wrappers consume or
produce them: MSB first for `BigEndian`, LSB first for `LittleEndian`. -/

/-- The low `n` bits of `v` in BE (most significant first) stream order. -/
def toBitsBE : Nat → Nat → List Bool
  | 0, _ => []
  | n + 1, v => v.testBit n :: toBitsBE n v

/-- The low `n` bits of `v` in LE (least significant first) stream order. -/
def toBitsLE : Nat → Nat → List Bool
  | 0, _ => []
  | n + 1, v => v.testBit 0 :: toBitsLE n (v >>> 1)

/-- The low `n` bits of `v` in the stream order of the given policy. -/
def toBits : Endianness → Nat → Nat → List Bool
  | .be => toBitsBE
  | .le => toBitsLE

/-- The value of a bit list read MSB-first. -/
def valBE : List Bool → Nat
  | [] => 0
  | b :: l => b.toNat * 2 ^ l.length + valBE l

/-- The value of a bit list read LSB-first. -/
def valLE : List Bool → Nat
  | [] => 0
  | b :: l => b.toNat + 2 * valLE l

/-- The value of a bit list under the given policy: the first bit of the
list is the most significant bit of the value for BE, the least significant
for LE. -/
def valBits : Endianness → List Bool → Nat
  | .be => valBE
  | .le => valLE

/-- The eight bits of a byte in stream order. -/
def byteBits (E : Endianness) (b : Nat) : List Bool := toBits E 8 b

/-- The bit stream carried by a byte sequence. -/
def streamBits (E : Endianness) : List Nat → List Bool
  | [] => []
  | b :: rest => byteBits E b ++ streamBits E rest

theorem length_toBitsBE (n v : Nat) : (toBitsBE n v).length = n := by
  induction n generalizing v with
  | zero => rfl
  | succ k ih => simp [toBitsBE, ih]

theorem length_toBitsLE (n v : Nat) : (toBitsLE n v).length = n := by
  induction n generalizing v with
  | zero => rfl
  | succ k ih => simp [toBitsLE, ih]

theorem length_toBits (E : Endianness) (n v : Nat) : (toBits E n v).length = n := by
  cases E <;> simp [toBits, length_toBitsBE, length_toBitsLE]

theorem valBE_lt (l : List Bool) : valBE l < 2 ^ l.length := by
  induction l with
  | nil => simp [valBE]
  | cons b l ih =>
    simp only [valBE, List.length_cons, pow_succ]
    cases b <;> simp [Bool.toNat] <;> omega

theorem valLE_lt (l : List Bool) : valLE l < 2 ^ l.length := by
  induction l with
  | nil => simp [valLE]
  | cons b l ih =>
    simp only [valLE, List.length_cons, pow_succ]
    cases b <;> simp [Bool.toNat] <;> omega

theorem valBits_lt (E : Endianness) (l : List Bool) : valBits E l < 2 ^ l.length := by
  cases E <;> simp [valBits, valBE_lt, valLE_lt]

theorem valBE_append (l₁ l₂ : List Bool) :
    valBE (l₁ ++ l₂) = valBE l₁ * 2 ^ l₂.length + valBE l₂ := by
  induction l₁ with
  | nil => simp [valBE]
  | cons b l ih =>
    simp only [List.cons_append, valBE, List.append_eq, ih, List.length_append, pow_add]
    ring

theorem valLE_append (l₁ l₂ : List Bool) :
    valLE (l₁ ++ l₂) = valLE l₁ + 2 ^ l₁.length * valLE l₂ := by
  induction l₁ with
  | nil => simp [valLE]
  | cons b l ih =>
    simp only [List.cons_append, valLE, List.append_eq, ih, List.length_cons, pow_succ]
    ring

theorem valBE_toBitsBE (n v : Nat) : valBE (toBitsBE n v) = v % 2 ^ n := by
  induction n with
  | zero => simp [toBitsBE, valBE, Nat.mod_one]
  | succ k ih =>
    have hmod : v % 2 ^ (k + 1) = v % 2 ^ k + 2 ^ k * (v / 2 ^ k % 2) := by
      rw [pow_succ, Nat.mod_mul]
    have htb : (v.testBit k).toNat = v / 2 ^ k % 2 := by
      rw [Nat.testBit_to_div_mod]
      rcases Nat.mod_two_eq_zero_or_one (v / 2 ^ k) with h | h <;> simp [h]
    simp only [toBitsBE, valBE, length_toBitsBE, ih, htb, hmod]
    ring

theorem valLE_toBitsLE (n v : Nat) : valLE (toBitsLE n v) = v % 2 ^ n := by
  induction n generalizing v with
  | zero => simp [toBitsLE, valLE, Nat.mod_one]
  | succ k ih =>
    have hmod : v % 2 ^ (k + 1) = v % 2 + 2 * (v / 2 % 2 ^ k) := by
      rw [pow_succ']
      exact Nat.mod_mul
    have htb : (v.testBit 0).toNat = v % 2 := by
      rcases Nat.mod_two_eq_zero_or_one v with h | h <;> simp [Nat.testBit_zero, h]
    have hdiv : v >>> 1 = v / 2 := by
      rw [Nat.shiftRight_eq_div_pow, pow_one]
    simp only [toBitsLE, valLE, ih, htb, hdiv, hmod]

theorem valBits_toBits (E : Endianness) (n v : Nat) :
    valBits E (toBits E n v) = v % 2 ^ n := by
  cases E <;> simp [valBits, toBits, valBE_toBitsBE, valLE_toBitsLE]

theorem toBitsBE_drop (n v k : Nat) : (toBitsBE n v).drop k = toBitsBE (n - k) v := by
  induction n generalizing k with
  | zero => simp [toBitsBE]
  | succ m ih =>
    cases k with
    | zero => rfl
    | succ j => simp [toBitsBE, ih]

theorem toBitsBE_take (n v k : Nat) (hk : k ≤ n) :
    (toBitsBE n v).take k = toBitsBE k (v >>> (n - k)) := by
  induction n generalizing k with
  | zero => simp_all [toBitsBE]
  | succ m ih =>
    cases k with
    | zero => rfl
    | succ j =>
      have hj : j ≤ m := by omega
      have hbit : (v >>> (m - j)).testBit j = v.testBit m := by
        rw [Nat.testBit_shiftRight]
        congr 1
        omega
      simp [toBitsBE, ih j hj, hbit]

theorem toBitsLE_take (n v k : Nat) (hk : k ≤ n) :
    (toBitsLE n v).take k = toBitsLE k v := by
  induction n generalizing v k with
  | zero => simp_all [toBitsLE]
  | succ m ih =>
    cases k with
    | zero => rfl
    | succ j => simp [toBitsLE, ih (v >>> 1) j (by omega)]

theorem toBitsLE_drop (n v k : Nat) : (toBitsLE n v).drop k = toBitsLE (n - k) (v >>> k) := by
  induction n generalizing v k with
  | zero => simp [toBitsLE]
  | succ m ih =>
    cases k with
    | zero => rfl
    | succ j =>
      have : v >>> 1 >>> j = v >>> (j + 1) := by
        rw [← Nat.shiftRight_add, Nat.add_comm]
      simp [toBitsLE, ih (v >>> 1) j, this]

theorem toBitsBE_congr (n v w : Nat) (h : ∀ j, j < n → v.testBit j = w.testBit j) :
    toBitsBE n v = toBitsBE n w := by
  induction n with
  | zero => rfl
  | succ k ih =>
    simp only [toBitsBE]
    exact List.cons_eq_cons.mpr ⟨h k (by omega), ih fun j hj => h j (by omega)⟩

theorem toBitsLE_congr (n v w : Nat) (h : ∀ j, j < n → v.testBit j = w.testBit j) :
    toBitsLE n v = toBitsLE n w := by
  induction n generalizing v w with
  | zero => rfl
  | succ k ih =>
    simp only [toBitsLE]
    refine List.cons_eq_cons.mpr ⟨h 0 (by omega), ih _ _ fun j hj => ?_⟩
    rw [Nat.testBit_shiftRight, Nat.testBit_shiftRight]
    exact h (1 + j) (by omega)

theorem toBits_mod (E : Endianness) (n v : Nat) :
    toBits E n (v % 2 ^ n) = toBits E n v := by
  have h : ∀ j, j < n → (v % 2 ^ n).testBit j = v.testBit j := by
    intro j hj
    rw [Nat.testBit_mod_two_pow]
    simp [hj]
  cases E
  · exact toBitsBE_congr n _ v h
  · exact toBitsLE_congr n _ v h

/-- Repack a bit stream into bytes under the given policy: the full
8-bit chunks as byte values, plus the leftover bits (fewer than 8). -/
def chunkBytes (E : Endianness) (l : List Bool) : List Nat × List Bool :=
  if 8 ≤ l.length then
    let p := chunkBytes E (l.drop 8)
    (valBits E (l.take 8) :: p.1, p.2)
  else
    ([], l)
termination_by l.length
decreasing_by simp; omega

theorem chunkBytes_short (E : Endianness) (l : List Bool) (h : l.length < 8) :
    chunkBytes E l = ([], l) := by
  rw [chunkBytes]
  simp [Nat.not_le.mpr h]

theorem chunkBytes_long (E : Endianness) (l : List Bool) (h : 8 ≤ l.length) :
    chunkBytes E l =
      ((valBits E (l.take 8)) :: (chunkBytes E (l.drop 8)).1, (chunkBytes E (l.drop 8)).2) := by
  rw [chunkBytes]
  simp [h]

theorem chunkBytes_leftover_lt (E : Endianness) (l : List Bool) :
    (chunkBytes E l).2.length < 8 := by
  by_cases h : 8 ≤ l.length
  · rw [chunkBytes_long E l h]
    exact chunkBytes_leftover_lt E (l.drop 8)
  · rw [chunkBytes_short E l (by omega)]
    simp
    omega
termination_by l.length
decreasing_by simp; omega

theorem chunkBytes_append (E : Endianness) (P B : List Bool) :
    chunkBytes E (P ++ B) =
      ((chunkBytes E P).1 ++ (chunkBytes E ((chunkBytes E P).2 ++ B)).1,
       (chunkBytes E ((chunkBytes E P).2 ++ B)).2) := by
  by_cases h : 8 ≤ P.length
  · have h2 : 8 ≤ (P ++ B).length := by simp; omega
    rw [chunkBytes_long E (P ++ B) h2, chunkBytes_long E P h]
    have ht : (P ++ B).take 8 = P.take 8 := by
      rw [List.take_append_eq_append_take]
      simp [Nat.sub_eq_zero_of_le h]
    have hd : (P ++ B).drop 8 = P.drop 8 ++ B := by
      rw [List.drop_append_eq_append_drop]
      simp [Nat.sub_eq_zero_of_le h]
    rw [ht, hd, chunkBytes_append E (P.drop 8) B]
    simp
  · rw [chunkBytes_short E P (by omega)]
    simp
termination_by P.length
decreasing_by simp; omega

theorem chunkBytes_stream (E : Endianness) (S : List Nat) (hS : ∀ b ∈ S, b < 256) :
    chunkBytes E (streamBits E S) = (S, []) := by
  induction S with
  | nil => exact chunkBytes_short E [] (by simp)
  | cons b S ih =>
    rw [streamBits]
    have hlen : (byteBits E b).length = 8 := length_toBits ..
    have h8 : 8 ≤ (byteBits E b ++ streamBits E S).length := by simp [hlen]
    rw [chunkBytes_long E _ h8]
    have ht : (byteBits E b ++ streamBits E S).take 8 = byteBits E b := by
      rw [List.take_append_eq_append_take]
      simp [hlen]
    have hd : (byteBits E b ++ streamBits E S).drop 8 = streamBits E S := by
      rw [List.drop_append_eq_append_drop]
      simp [hlen]
    have hb : b < 256 := hS b (by simp)
    rw [ht, hd, ih (fun x hx => hS x (by simp [hx]))]
    simp only [byteBits, valBits_toBits]
    rw [Nat.mod_eq_of_lt (by norm_num; omega : b < 2 ^ 8)]

/-- Disjoint bitwise or is addition: when the low `k` bits of `a` are clear
and `b` fits in `k` bits, `a ||| b = a + b`. -/
theorem lor_disjoint (k a b : Nat) (ha : a % 2 ^ k = 0) (hb : b < 2 ^ k) :
    a ||| b = a + b := by
  obtain ⟨q, rfl⟩ : ∃ q, a = 2 ^ k * q :=
    ⟨a / 2 ^ k, (Nat.mul_div_cancel' (Nat.dvd_of_mod_eq_zero ha)).symm⟩
  apply Nat.eq_of_testBit_eq
  intro i
  rw [Nat.testBit_lor, Nat.testBit_mul_pow_two_add q hb i]
  have hshape : 2 ^ k * q = q <<< k := by
    rw [Nat.shiftLeft_eq]
    ring
  by_cases hik : i < k
  · have h1 : (2 ^ k * q).testBit i = false := by
      rw [hshape, Nat.testBit_shiftLeft]
      simp [Nat.not_le.mpr hik]
    simp [hik, h1]
  · have h1 : (2 ^ k * q).testBit i = q.testBit (i - k) := by
      rw [hshape, Nat.testBit_shiftLeft]
      simp [Nat.not_lt.mp hik]
    have h2 : b.testBit i = false :=
      Nat.testBit_lt_two_pow
        (lt_of_lt_of_le hb (Nat.pow_le_pow_right (by omega) (by omega)))
    simp [hik, h1, h2]

/-! ## Step lemmas for the writer -/

theorem mul_pow_lt_256 (g n : Nat) (hg : g < 2 ^ n) (hn : n ≤ 8) :
    g * 2 ^ (8 - n) < 256 := by
  calc g * 2 ^ (8 - n) < 2 ^ n * 2 ^ (8 - n) :=
        Nat.mul_lt_mul_of_lt_of_le hg (Nat.le_refl _) (Nat.pos_pow_of_pos _ (by omega))
    _ = 256 := by rw [← pow_add, show n + (8 - n) = 8 by omega]; norm_num

theorem mul_pow_mod_256 (g n : Nat) (hg : g < 2 ^ n) (hn : n ≤ 8) :
    g * 2 ^ (8 - n) % 256 = g * 2 ^ (8 - n) :=
  Nat.mod_eq_of_lt (mul_pow_lt_256 g n hg hn)

/-- The effect of `BitWriter::write_bits` for `BigEndian` on a canonical
writer state: the pending `o` bits have value `v` and sit in the high bits
of `bit_buffer`.  With `1 ≤ count ≤ 8` the combined value `v * 2^n + g`
either stays pending, or its top 8 bits are flushed as one byte and the
remainder stays pending. -/
theorem write_bits_step_be (k : BitWriter.Sink) (o v g n cap : Nat)
    (hk : k.fail = none) (ho : o < 8) (hv : v < 2 ^ o) (hn1 : 1 ≤ n) (hn8 : n ≤ 8)
    (hg : g < 2 ^ n) :
    BitWriter.write_bits .be g n
      { inner := some k, bit_offset := o, bit_buffer := v * 2 ^ (8 - o), cap := cap } =
    (.ok (),
      if o + n < 8 then
        { inner := some k, bit_offset := o + n,
          bit_buffer := (v * 2 ^ n + g) * 2 ^ (8 - (o + n)), cap := cap }
      else
        { inner := some { k with bytes := k.bytes ++ [(v * 2 ^ n + g) / 2 ^ (o + n - 8)] },
          bit_offset := o + n - 8,
          bit_buffer := (v * 2 ^ n + g) % 2 ^ (o + n - 8) * 2 ^ (16 - (o + n)),
          cap := cap }) := by
  have h8n : 8 - n < 8 := by omega
  have ho8 : o < 8 := ho
  have hbits : (g <<< (8 - n)) % 256 = g * 2 ^ (8 - n) := by
    rw [Nat.shiftLeft_eq]
    exact mul_pow_mod_256 g n hg hn8
  have hbits2 : g * 2 ^ (8 - n) % 256 = g * 2 ^ (8 - n) :=
    mul_pow_mod_256 g n hg hn8
  have hlow : (g * 2 ^ (8 - n)) >>> o = g * 2 ^ (8 - n) / 2 ^ o := by
    rw [Nat.shiftRight_eq_div_pow]
  have hpow : (2 : Nat) ^ (8 - o) * 2 ^ o = 256 := by
    rw [← pow_add, show 8 - o + o = 8 by omega]; norm_num
  have hlowlt : g * 2 ^ (8 - n) / 2 ^ o < 2 ^ (8 - o) := by
    rw [Nat.div_lt_iff_lt_mul (Nat.pos_pow_of_pos _ (by omega)), hpow]
    exact mul_pow_lt_256 g n hg hn8
  have hbuf : v * 2 ^ (8 - o) ||| g * 2 ^ (8 - n) / 2 ^ o =
      v * 2 ^ (8 - o) + g * 2 ^ (8 - n) / 2 ^ o :=
    lor_disjoint (8 - o) _ _ (Nat.mul_mod_left ..) hlowlt
  by_cases hcase : o + n < 8
  · have h1 : ¬ (8 ≤ o + n) := by omega
    have h2 : ¬ (8 < o + n) := by omega
    have hoff1 : (o + n) % 8 = o + n := Nat.mod_eq_of_lt hcase
    have hmerge : v * 2 ^ (8 - o) + g * 2 ^ (8 - n) / 2 ^ o =
        (v * 2 ^ n + g) * 2 ^ (8 - (o + n)) := by
      interval_cases o <;> interval_cases n <;> omega
    simp only [BitWriter.write_bits, BitWriter.flush_buffer, BitWriter.sink_write,
      bind_apply, getSt_apply, setSt_apply, liftE_apply, pure_apply, rustAssert,
      if_pos hn8, shlU8, shrU8, shift_msb, shift_lsb, align_right,
      if_pos h8n, if_pos ho8, Nat.shiftLeft_eq, hbits, hbits2, hlow, hbuf, hk,
      if_neg h1, if_neg h2, if_pos hcase, hoff1, hmerge]
  · have h1 : 8 ≤ o + n := by omega
    have hoff2 : (o + n) % 8 = o + n - 8 := by omega
    have hbyte : v * 2 ^ (8 - o) + g * 2 ^ (8 - n) / 2 ^ o =
        (v * 2 ^ n + g) / 2 ^ (o + n - 8) := by
      interval_cases o <;> interval_cases n <;> omega
    rcases Nat.lt_or_ge 8 (o + n) with hgt | hle8
    · have h8o : 8 - o < 8 := by omega
      have hleft : g * 2 ^ (8 - n) * 2 ^ (8 - o) % 256 =
          (v * 2 ^ n + g) % 2 ^ (o + n - 8) * 2 ^ (16 - (o + n)) := by
        interval_cases o <;> interval_cases n <;> omega
      simp only [BitWriter.write_bits, BitWriter.flush_buffer, BitWriter.sink_write,
        bind_apply, getSt_apply, setSt_apply, liftE_apply, pure_apply, rustAssert,
        if_pos hn8, shlU8, shrU8, shift_msb, shift_lsb, align_right,
        if_pos h8n, if_pos ho8, Nat.shiftLeft_eq, hbits, hbits2, hlow, hbuf, hk,
        if_pos h1, if_pos hgt, if_neg (by omega : ¬ (o + n < 8)), if_pos h8o,
        hoff2, hbyte, hleft]
    · have heq : o + n = 8 := by omega
      have h2 : ¬ (8 < o + n) := by omega
      have hzero : (v * 2 ^ n + g) % 2 ^ (o + n - 8) * 2 ^ (16 - (o + n)) = 0 := by
        interval_cases o <;> interval_cases n <;> omega
      simp only [BitWriter.write_bits, BitWriter.flush_buffer, BitWriter.sink_write,
        bind_apply, getSt_apply, setSt_apply, liftE_apply, pure_apply, rustAssert,
        if_pos hn8, shlU8, shrU8, shift_msb, shift_lsb, align_right,
        if_pos h8n, if_pos ho8, Nat.shiftLeft_eq, hbits, hbits2, hlow, hbuf, hk,
        if_pos h1, if_neg h2, if_neg (by omega : ¬ (o + n < 8)), hoff2, hbyte, hzero]

/-- The effect of `BitWriter::write_bits` for `LittleEndian` on a canonical
writer state: the pending `o` bits have value `v` and sit in the low bits
of `bit_buffer`.  With `1 ≤ count ≤ 8` the combined value `v + 2^o * g`
either stays pending, or its low 8 bits are flushed as one byte and the
remainder stays pending. -/
theorem write_bits_step_le (k : BitWriter.Sink) (o v g n cap : Nat)
    (hk : k.fail = none) (ho : o < 8) (hv : v < 2 ^ o) (hn1 : 1 ≤ n) (hn8 : n ≤ 8)
    (hg : g < 2 ^ n) :
    BitWriter.write_bits .le g n
      { inner := some k, bit_offset := o, bit_buffer := v, cap := cap } =
    (.ok (),
      if o + n < 8 then
        { inner := some k, bit_offset := o + n, bit_buffer := v + 2 ^ o * g, cap := cap }
      else
        { inner := some { k with bytes := k.bytes ++ [(v + 2 ^ o * g) % 256] },
          bit_offset := o + n - 8, bit_buffer := (v + 2 ^ o * g) / 256,
          cap := cap }) := by
  have h8n : 8 - n < 8 := by omega
  have ho8 : o < 8 := ho
  have hbits2 : g * 2 ^ (8 - n) % 256 = g * 2 ^ (8 - n) :=
    mul_pow_mod_256 g n hg hn8
  have hbits3 : (g * 2 ^ (8 - n)) >>> (8 - n) = g := by
    rw [Nat.shiftRight_eq_div_pow]
    exact Nat.mul_div_cancel _ (Nat.pos_pow_of_pos _ (by omega))
  have hpow : (2 : Nat) ^ (8 - o) * 2 ^ o = 256 := by
    rw [← pow_add, show 8 - o + o = 8 by omega]; norm_num
  have hlow : g * 2 ^ o % 256 = g % 2 ^ (8 - o) * 2 ^ o := by
    rw [show (256 : Nat) = 2 ^ (8 - o) * 2 ^ o from hpow.symm, Nat.mul_mod_mul_right]
  have hbuf : v ||| g % 2 ^ (8 - o) * 2 ^ o = v + 2 ^ o * (g % 2 ^ (8 - o)) := by
    rw [Nat.lor_comm, lor_disjoint o _ _ (Nat.mul_mod_left ..) hv]
    ring
  by_cases hcase : o + n < 8
  · have h1 : ¬ (8 ≤ o + n) := by omega
    have h2 : ¬ (8 < o + n) := by omega
    have hoff1 : (o + n) % 8 = o + n := Nat.mod_eq_of_lt hcase
    have hmerge : v + 2 ^ o * (g % 2 ^ (8 - o)) = v + 2 ^ o * g := by
      interval_cases o <;> interval_cases n <;> omega
    simp only [BitWriter.write_bits, BitWriter.flush_buffer, BitWriter.sink_write,
      bind_apply, getSt_apply, setSt_apply, liftE_apply, pure_apply, rustAssert,
      if_pos hn8, shlU8, shrU8, shift_msb, shift_lsb, align_right,
      if_pos h8n, if_pos ho8, Nat.shiftLeft_eq, hbits2, hbits3, hlow, hbuf, hk,
      if_neg h1, if_neg h2, if_pos hcase, hoff1, hmerge]
  · have h1 : 8 ≤ o + n := by omega
    have hoff2 : (o + n) % 8 = o + n - 8 := by omega
    have hbyte : v + 2 ^ o * (g % 2 ^ (8 - o)) = (v + 2 ^ o * g) % 256 := by
      interval_cases o <;> interval_cases n <;> omega
    rcases Nat.lt_or_ge 8 (o + n) with hgt | hle8
    · have h8o : 8 - o < 8 := by omega
      have hleft : g >>> (8 - o) = (v + 2 ^ o * g) / 256 := by
        rw [Nat.shiftRight_eq_div_pow]
        interval_cases o <;> interval_cases n <;> omega
      simp only [BitWriter.write_bits, BitWriter.flush_buffer, BitWriter.sink_write,
        bind_apply, getSt_apply, setSt_apply, liftE_apply, pure_apply, rustAssert,
        if_pos hn8, shlU8, shrU8, shift_msb, shift_lsb, align_right,
        if_pos h8n, if_pos ho8, Nat.shiftLeft_eq, hbits2, hbits3, hlow, hbuf, hk,
        if_pos h1, if_pos hgt, if_neg (by omega : ¬ (o + n < 8)), if_pos h8o,
        hoff2, hbyte, hleft]
    · have h2 : ¬ (8 < o + n) := by omega
      have hzero : (v + 2 ^ o * g) / 256 = 0 := by
        interval_cases o <;> interval_cases n <;> omega
      simp only [BitWriter.write_bits, BitWriter.flush_buffer, BitWriter.sink_write,
        bind_apply, getSt_apply, setSt_apply, liftE_apply, pure_apply, rustAssert,
        if_pos hn8, shlU8, shrU8, shift_msb, shift_lsb, align_right,
        if_pos h8n, if_pos ho8, Nat.shiftLeft_eq, hbits2, hbits3, hlow, hbuf, hk,
        if_pos h1, if_neg h2, if_neg (by omega : ¬ (o + n < 8)), hoff2, hbyte, hzero]

/-! ## Step lemmas for the reader -/

/-- BE `read_bits` from an aligned reader: one byte is fetched and its top
`count` bits are returned. -/
theorem read_bits_aligned_be (rest : List Nat) (b raw n : Nat)
    (hb : b < 256) (hn1 : 1 ≤ n) (hn8 : n ≤ 8) :
    BitReader.read_bits .be n { src := b :: rest, bit_offset := 0, bit_buffer := raw } =
      (.ok (b / 2 ^ (8 - n)), { src := rest, bit_offset := n % 8, bit_buffer := b }) := by
  have h8n : 8 - n < 8 := by omega
  have hno : ¬ (8 - 0 < n) := by omega
  simp only [BitReader.read_bits, BitReader.read_bits_be, BitReader.fill_buffer,
    BitReader.is_aligned, bind_apply, getSt_apply, setSt_apply, liftE_apply, pure_apply,
    rustAssert, if_pos hn8, shlU8, shrU8, Nat.shiftLeft_eq, Nat.shiftRight_eq_div_pow,
    if_pos (by omega : (0 : Nat) < 8), if_pos h8n, if_neg hno, pow_zero, mul_one,
    Nat.mod_eq_of_lt hb, beq_self_eq_true, if_true, Nat.zero_add]

/-- BE `read_bits` that is served entirely from the pending bits: no fetch,
the `count` leading pending bits are returned. -/
theorem read_bits_nofetch_be (src : List Nat) (o raw n : Nat)
    (ho1 : 1 ≤ o) (ho : o < 8) (hn1 : 1 ≤ n) (hn : n ≤ 8 - o) :
    BitReader.read_bits .be n { src := src, bit_offset := o, bit_buffer := raw } =
      (.ok (raw % 2 ^ (8 - o) / 2 ^ (8 - o - n)),
       { src := src, bit_offset := (o + n) % 8, bit_buffer := raw }) := by
  have hn8 : n ≤ 8 := by omega
  have h8n : 8 - n < 8 := by omega
  have hA : ((o == 0) : Bool) = false := by simp; omega
  have hpow : (2 : Nat) ^ (8 - o) * 2 ^ o = 256 := by
    rw [← pow_add, show 8 - o + o = 8 by omega]; norm_num
  have hsh : raw * 2 ^ o % 256 = raw % 2 ^ (8 - o) * 2 ^ o := by
    rw [show (256 : Nat) = 2 ^ (8 - o) * 2 ^ o from hpow.symm, Nat.mul_mod_mul_right]
  have hval : raw % 2 ^ (8 - o) * 2 ^ o / 2 ^ (8 - n) =
      raw % 2 ^ (8 - o) / 2 ^ (8 - o - n) := by
    interval_cases o <;> interval_cases n <;> omega
  simp only [BitReader.read_bits, BitReader.read_bits_be, BitReader.fill_buffer,
    BitReader.is_aligned, bind_apply, getSt_apply, setSt_apply, liftE_apply, pure_apply,
    rustAssert, if_pos hn8, shlU8, shrU8, Nat.shiftLeft_eq, Nat.shiftRight_eq_div_pow,
    if_pos ho, if_pos h8n, if_neg (by omega : ¬ (8 - o < n)), hA, Bool.false_eq_true,
    if_false, hsh, hval]

/-- BE `read_bits` that straddles a byte boundary: the pending bits are
topped up from one fetched byte. -/
theorem read_bits_straddle_be (rest : List Nat) (o raw b n : Nat)
    (ho1 : 1 ≤ o) (ho : o < 8) (hb : b < 256) (hgt : 8 - o < n) (hn8 : n ≤ 8) :
    BitReader.read_bits .be n { src := b :: rest, bit_offset := o, bit_buffer := raw } =
      (.ok (raw % 2 ^ (8 - o) * 2 ^ (o + n - 8) + b / 2 ^ (16 - o - n)),
       { src := rest, bit_offset := o + n - 8, bit_buffer := b }) := by
  have hn1 : 1 ≤ n := by omega
  have h8n : 8 - n < 8 := by omega
  have h8o : 8 - o < 8 := by omega
  have hA : ((o == 0) : Bool) = false := by simp; omega
  have hpow : (2 : Nat) ^ (8 - o) * 2 ^ o = 256 := by
    rw [← pow_add, show 8 - o + o = 8 by omega]; norm_num
  have hsh : raw * 2 ^ o % 256 = raw % 2 ^ (8 - o) * 2 ^ o := by
    rw [show (256 : Nat) = 2 ^ (8 - o) * 2 ^ o from hpow.symm, Nat.mul_mod_mul_right]
  have hhi : b / 2 ^ (8 - o) < 2 ^ o := by
    rw [Nat.div_lt_iff_lt_mul (Nat.pos_pow_of_pos _ (by omega))]
    calc b < 256 := hb
      _ ≤ 2 ^ o * 2 ^ (8 - o) := by rw [mul_comm, hpow]
  have hor : raw % 2 ^ (8 - o) * 2 ^ o ||| b / 2 ^ (8 - o) =
      raw % 2 ^ (8 - o) * 2 ^ o + b / 2 ^ (8 - o) :=
    lor_disjoint o _ _ (Nat.mul_mod_left ..) hhi
  have hval : (raw % 2 ^ (8 - o) * 2 ^ o + b / 2 ^ (8 - o)) / 2 ^ (8 - n) =
      raw % 2 ^ (8 - o) * 2 ^ (o + n - 8) + b / 2 ^ (16 - o - n) := by
    interval_cases o <;> interval_cases n <;> omega
  have hoff : (o + n) % 8 = o + n - 8 := by omega
  simp only [BitReader.read_bits, BitReader.read_bits_be, BitReader.fill_buffer,
    BitReader.is_aligned, bind_apply, getSt_apply, setSt_apply, liftE_apply, pure_apply,
    rustAssert, if_pos hn8, shlU8, shrU8, Nat.shiftLeft_eq, Nat.shiftRight_eq_div_pow,
    if_pos ho, if_pos h8n, if_pos h8o, if_pos hgt, hA, Bool.false_eq_true, if_false,
    hsh, hor, hval, hoff]

/-- LE `read_bits` from an aligned reader: one byte is fetched and its low
`count` bits are returned. -/
theorem read_bits_aligned_le (rest : List Nat) (b raw n : Nat)
    (hb : b < 256) (hn1 : 1 ≤ n) (hn8 : n ≤ 8) :
    BitReader.read_bits .le n { src := b :: rest, bit_offset := 0, bit_buffer := raw } =
      (.ok (b % 2 ^ n), { src := rest, bit_offset := n % 8, bit_buffer := b }) := by
  have h8n : 8 - n < 8 := by omega
  have hcond : ((0 : Nat) : Int) + (n : Int) - 8 ≤ 0 := by omega
  have hneg : (-(((0 : Nat) : Int) + (n : Int) - 8)).toNat = 8 - n := by omega
  have hpow : (2 : Nat) ^ n * 2 ^ (8 - n) = 256 := by
    rw [← pow_add, show n + (8 - n) = 8 by omega]; norm_num
  have hsh : b * 2 ^ (8 - n) % 256 = b % 2 ^ n * 2 ^ (8 - n) := by
    rw [show (256 : Nat) = 2 ^ n * 2 ^ (8 - n) from hpow.symm, Nat.mul_mod_mul_right]
  have hdiv : b % 2 ^ n * 2 ^ (8 - n) / 2 ^ (8 - n) = b % 2 ^ n :=
    Nat.mul_div_cancel _ (Nat.pos_pow_of_pos _ (by omega))
  simp only [BitReader.read_bits, BitReader.read_bits_le, BitReader.fill_buffer,
    BitReader.is_aligned, bind_apply, getSt_apply, setSt_apply, liftE_apply, pure_apply,
    rustAssert, if_pos hn8, shlU8, shrU8, Nat.shiftLeft_eq, Nat.shiftRight_eq_div_pow,
    if_pos h8n, if_pos hcond, hneg, hsh, hdiv, beq_self_eq_true, if_true, Nat.zero_add]

/-- LE `read_bits` served entirely from the pending bits. -/
theorem read_bits_nofetch_le (src : List Nat) (o raw n : Nat)
    (ho1 : 1 ≤ o) (ho : o < 8) (hn1 : 1 ≤ n) (hn : n ≤ 8 - o) :
    BitReader.read_bits .le n { src := src, bit_offset := o, bit_buffer := raw } =
      (.ok (raw / 2 ^ o % 2 ^ n),
       { src := src, bit_offset := (o + n) % 8, bit_buffer := raw }) := by
  have hn8 : n ≤ 8 := by omega
  have h8n : 8 - n < 8 := by omega
  have hA : ((o == 0) : Bool) = false := by simp; omega
  have hcond : ((o : Nat) : Int) + (n : Int) - 8 ≤ 0 := by omega
  have hneg : (-(((o : Nat) : Int) + (n : Int) - 8)).toNat = 8 - o - n := by omega
  have h8on : 8 - o - n < 8 := by omega
  have hval : raw * 2 ^ (8 - o - n) % 256 / 2 ^ (8 - n) = raw / 2 ^ o % 2 ^ n := by
    interval_cases o <;> interval_cases n <;> omega
  simp only [BitReader.read_bits, BitReader.read_bits_le, BitReader.fill_buffer,
    BitReader.is_aligned, bind_apply, getSt_apply, setSt_apply, liftE_apply, pure_apply,
    rustAssert, if_pos hn8, shlU8, shrU8, Nat.shiftLeft_eq, Nat.shiftRight_eq_div_pow,
    if_pos h8n, if_pos h8on, hA, Bool.false_eq_true, if_false, if_pos hcond, hneg, hval]

/-- LE `read_bits` that straddles a byte boundary. -/
theorem read_bits_straddle_le (rest : List Nat) (o raw b n : Nat)
    (ho1 : 1 ≤ o) (ho : o < 8) (hraw : raw < 256) (hb : b < 256)
    (hgt : 8 - o < n) (hn8 : n ≤ 8) :
    BitReader.read_bits .le n { src := b :: rest, bit_offset := o, bit_buffer := raw } =
      (.ok (raw / 2 ^ o + 2 ^ (8 - o) * (b % 2 ^ (o + n - 8))),
       { src := rest, bit_offset := o + n - 8, bit_buffer := b }) := by
  have hn1 : 1 ≤ n := by omega
  have h8n : 8 - n < 8 := by omega
  have hA : ((o == 0) : Bool) = false := by simp; omega
  have hcond : ¬ (((o : Nat) : Int) + (n : Int) - 8 ≤ 0) := by omega
  have htN : (((o : Nat) : Int) + (n : Int) - 8).toNat = o + n - 8 := by omega
  have ht8 : ((8 : Int) - (((o : Nat) : Int) + (n : Int) - 8)).toNat = 16 - o - n := by omega
  have hk8 : o + n - 8 < 8 := by omega
  have h16 : 16 - o - n < 8 := by omega
  have hpow : (2 : Nat) ^ (o + n - 8) * 2 ^ (16 - o - n) = 256 := by
    rw [← pow_add, show o + n - 8 + (16 - o - n) = 8 by omega]; norm_num
  have hsh : b * 2 ^ (16 - o - n) % 256 = b % 2 ^ (o + n - 8) * 2 ^ (16 - o - n) := by
    rw [show (256 : Nat) = 2 ^ (o + n - 8) * 2 ^ (16 - o - n) from hpow.symm,
      Nat.mul_mod_mul_right]
  have hlo : raw / 2 ^ (o + n - 8) < 2 ^ (16 - o - n) := by
    rw [Nat.div_lt_iff_lt_mul (Nat.pos_pow_of_pos _ (by omega))]
    calc raw < 256 := hraw
      _ ≤ 2 ^ (16 - o - n) * 2 ^ (o + n - 8) := by rw [mul_comm, hpow]
  have hor : raw / 2 ^ (o + n - 8) ||| b % 2 ^ (o + n - 8) * 2 ^ (16 - o - n) =
      raw / 2 ^ (o + n - 8) + b % 2 ^ (o + n - 8) * 2 ^ (16 - o - n) := by
    rw [Nat.lor_comm, lor_disjoint (16 - o - n) _ _ (Nat.mul_mod_left ..) hlo]
    ring
  have hval : (raw / 2 ^ (o + n - 8) + b % 2 ^ (o + n - 8) * 2 ^ (16 - o - n)) / 2 ^ (8 - n) =
      raw / 2 ^ o + 2 ^ (8 - o) * (b % 2 ^ (o + n - 8)) := by
    interval_cases o <;> interval_cases n <;> omega
  have hoff : (o + n) % 8 = o + n - 8 := by omega
  simp only [BitReader.read_bits, BitReader.read_bits_le, BitReader.fill_buffer,
    BitReader.is_aligned, bind_apply, getSt_apply, setSt_apply, liftE_apply, pure_apply,
    rustAssert, if_pos hn8, shlU8, shrU8, Nat.shiftLeft_eq, Nat.shiftRight_eq_div_pow,
    if_pos h8n, if_pos hk8, if_pos h16, if_neg hcond, hA, Bool.false_eq_true, if_false,
    htN, ht8, hsh, hor, hval, hoff]

/-! ## Round-trip between bit lists and values -/

theorem toBitsBE_valBE (l : List Bool) : toBitsBE l.length (valBE l) = l := by
  induction l with
  | nil => rfl
  | cons b l ih =>
    have hlt := valBE_lt l
    have hd : (b.toNat * 2 ^ l.length + valBE l).testBit l.length = b := by
      rw [show b.toNat * 2 ^ l.length + valBE l = 2 ^ l.length * b.toNat + valBE l by ring,
        Nat.testBit_mul_pow_two_add _ hlt]
      simp
      cases b <;> simp
    have htail : toBitsBE l.length (b.toNat * 2 ^ l.length + valBE l) =
        toBitsBE l.length (valBE l) := by
      apply toBitsBE_congr
      intro j hj
      rw [show b.toNat * 2 ^ l.length + valBE l = 2 ^ l.length * b.toNat + valBE l by ring,
        Nat.testBit_mul_pow_two_add _ hlt]
      simp [hj]
    simp only [List.length_cons, toBitsBE, valBE, hd, htail, ih]

theorem toBitsLE_valLE (l : List Bool) : toBitsLE l.length (valLE l) = l := by
  induction l with
  | nil => rfl
  | cons b l ih =>
    have hd : (b.toNat + 2 * valLE l).testBit 0 = b := by
      have : (b.toNat + 2 * valLE l) % 2 = b.toNat := by cases b <;> simp [Bool.toNat] <;> omega
      simp [Nat.testBit_zero, this]
    have htail : (b.toNat + 2 * valLE l) >>> 1 = valLE l := by
      rw [Nat.shiftRight_eq_div_pow, pow_one]
      cases b <;> simp [Bool.toNat] <;> omega
    simp only [List.length_cons, toBitsLE, valLE, hd, htail, ih]

theorem toBits_valBits (E : Endianness) (l : List Bool) :
    toBits E l.length (valBits E l) = l := by
  cases E <;> simp [toBits, valBits, toBitsBE_valBE, toBitsLE_valLE]

theorem streamBits_length (E : Endianness) (S : List Nat) :
    (streamBits E S).length = 8 * S.length := by
  induction S with
  | nil => rfl
  | cons b S ih =>
    simp only [streamBits, List.length_append, ih, byteBits, length_toBits,
      List.length_cons]
    ring

/-! ## Canonical writer states over bit lists -/

/-- The `bit_buffer` contents encoding a list of pending bits: at the high
end of the byte for BE, at the low end for LE. -/
def bufOfBits : Endianness → List Bool → Nat
  | .be, l => valBE l * 2 ^ (8 - l.length)
  | .le, l => valLE l

/-- The canonical writer state after the bit list `D` has been written to a
writer that started fresh on sink `k`: the full bytes of `D` have been
passed to the sink and the leftover bits are pending. -/
def wstateOf (E : Endianness) (k : BitWriter.Sink) (cap : Nat) (D : List Bool) :
    BitWriter.WState :=
  { inner := some { k with bytes := k.bytes ++ (chunkBytes E D).1 },
    bit_offset := (chunkBytes E D).2.length,
    bit_buffer := bufOfBits E (chunkBytes E D).2,
    cap := cap }

theorem wb_arith_be_byte (o v g n : Nat) (ho : o < 8) (hn1 : 1 ≤ n) (hn8 : n ≤ 8)
    (hv : v < 2 ^ o) (hg : g < 2 ^ n) (h8 : 8 ≤ o + n) :
    v * 2 ^ (8 - o) + g / 2 ^ (n - (8 - o)) % 2 ^ (8 - o) =
      (v * 2 ^ n + g) / 2 ^ (o + n - 8) := by
  interval_cases o <;> interval_cases n <;> omega

theorem wb_arith_be_left (o v g n : Nat) (ho : o < 8) (hn1 : 1 ≤ n) (hn8 : n ≤ 8)
    (hv : v < 2 ^ o) (hg : g < 2 ^ n) (h8 : 8 ≤ o + n) :
    g % 2 ^ (o + n - 8) * 2 ^ (8 - (o + n - 8)) =
      (v * 2 ^ n + g) % 2 ^ (o + n - 8) * 2 ^ (16 - (o + n)) := by
  interval_cases o <;> interval_cases n <;> omega

theorem wb_arith_le_byte (o v g n : Nat) (ho : o < 8) (hn1 : 1 ≤ n) (hn8 : n ≤ 8)
    (hv : v < 2 ^ o) (hg : g < 2 ^ n) (h8 : 8 ≤ o + n) :
    v + 2 ^ o * (g % 2 ^ (8 - o)) = (v + 2 ^ o * g) % 256 := by
  interval_cases o <;> interval_cases n <;> omega

theorem wb_arith_le_left (o v g n : Nat) (ho : o < 8) (hn1 : 1 ≤ n) (hn8 : n ≤ 8)
    (hv : v < 2 ^ o) (hg : g < 2 ^ n) (h8 : 8 ≤ o + n) :
    g / 2 ^ (8 - o) % 2 ^ (o + n - 8) = (v + 2 ^ o * g) / 256 := by
  interval_cases o <;> interval_cases n <;> omega

/-- A `write_bits` call on a canonical writer state appends the written
bits to the written bit list. -/
theorem write_bits_wstate (E : Endianness) (k : BitWriter.Sink) (hk : k.fail = none)
    (cap : Nat) (D : List Bool) (g n : Nat)
    (hn1 : 1 ≤ n) (hn8 : n ≤ 8) (hg : g < 2 ^ n) :
    BitWriter.write_bits E g n (wstateOf E k cap D) =
      (.ok (), wstateOf E k cap (D ++ toBits E n g)) := by
  have hPlen : (chunkBytes E D).2.length < 8 := chunkBytes_leftover_lt E D
  have hk2 : (BitWriter.Sink.mk (k.bytes ++ (chunkBytes E D).1) k.fail k.flushes).fail = none := hk
  have htblen : (toBits E n g).length = n := length_toBits ..
  have hchunk := chunkBytes_append E D (toBits E n g)
  have hPtake : ((chunkBytes E D).2 ++ toBits E n g).take 8 =
      (chunkBytes E D).2 ++ (toBits E n g).take (8 - (chunkBytes E D).2.length) := by
    rw [List.take_append_eq_append_take, List.take_of_length_le (by omega)]
  have hPdrop : ((chunkBytes E D).2 ++ toBits E n g).drop 8 =
      (toBits E n g).drop (8 - (chunkBytes E D).2.length) := by
    rw [List.drop_append_eq_append_drop, List.drop_eq_nil_of_le (by omega), List.nil_append]
  by_cases hcase : (chunkBytes E D).2.length + n < 8
  · have hsmall : ((chunkBytes E D).2 ++ toBits E n g).length < 8 := by
      simp [htblen]; omega
    have h2 : chunkBytes E ((chunkBytes E D).2 ++ toBits E n g) =
        ([], (chunkBytes E D).2 ++ toBits E n g) := chunkBytes_short _ _ hsmall
    cases E
    · rw [show wstateOf .be k cap D =
          { inner := some ⟨k.bytes ++ (chunkBytes .be D).1, k.fail, k.flushes⟩,
            bit_offset := (chunkBytes .be D).2.length,
            bit_buffer := valBE (chunkBytes .be D).2 *
              2 ^ (8 - (chunkBytes .be D).2.length), cap := cap } from rfl,
        write_bits_step_be _ _ _ _ _ _ hk2 hPlen (valBE_lt _) hn1 hn8 hg, if_pos hcase]
      simp only [wstateOf, bufOfBits, hchunk, h2, List.append_nil]
      rw [show toBits .be n g = toBitsBE n g from rfl, valBE_append, valBE_toBitsBE,
        Nat.mod_eq_of_lt hg]
      simp [length_toBitsBE]
    · rw [show wstateOf .le k cap D =
          { inner := some ⟨k.bytes ++ (chunkBytes .le D).1, k.fail, k.flushes⟩,
            bit_offset := (chunkBytes .le D).2.length,
            bit_buffer := valLE (chunkBytes .le D).2, cap := cap } from rfl,
        write_bits_step_le _ _ _ _ _ _ hk2 hPlen (valLE_lt _) hn1 hn8 hg, if_pos hcase]
      simp only [wstateOf, bufOfBits, hchunk, h2, List.append_nil]
      rw [show toBits .le n g = toBitsLE n g from rfl, valLE_append, valLE_toBitsLE,
        Nat.mod_eq_of_lt hg]
      simp [length_toBitsLE]
  · have h8 : 8 ≤ ((chunkBytes E D).2 ++ toBits E n g).length := by
      simp [htblen]; omega
    have hlong := chunkBytes_long E _ h8
    have hdlen : (((chunkBytes E D).2 ++ toBits E n g).drop 8).length =
        (chunkBytes E D).2.length + n - 8 := by
      simp [htblen]
    have hdrop : chunkBytes E (((chunkBytes E D).2 ++ toBits E n g).drop 8) =
        ([], ((chunkBytes E D).2 ++ toBits E n g).drop 8) :=
      chunkBytes_short _ _ (by omega)
    cases E
    · rw [show wstateOf .be k cap D =
          { inner := some ⟨k.bytes ++ (chunkBytes .be D).1, k.fail, k.flushes⟩,
            bit_offset := (chunkBytes .be D).2.length,
            bit_buffer := valBE (chunkBytes .be D).2 *
              2 ^ (8 - (chunkBytes .be D).2.length), cap := cap } from rfl,
        write_bits_step_be _ _ _ _ _ _ hk2 hPlen (valBE_lt _) hn1 hn8 hg,
        if_neg hcase]
      simp only [wstateOf, bufOfBits, hchunk, hlong, hdrop, List.append_nil, hdlen]
      rw [hPtake, hPdrop]
      rw [show toBits .be n g = toBitsBE n g from rfl,
        toBitsBE_take _ _ _ (by omega), toBitsBE_drop]
      simp only [valBits, valBE_append, valBE_toBitsBE, length_toBitsBE,
        Nat.shiftRight_eq_div_pow]
      rw [wb_arith_be_byte _ _ _ _ hPlen hn1 hn8 (valBE_lt _) hg (by omega),
        show n - (8 - (chunkBytes .be D).2.length) = (chunkBytes .be D).2.length + n - 8
          from by omega,
        wb_arith_be_left ((chunkBytes .be D).2.length) (valBE (chunkBytes .be D).2) g n
          hPlen hn1 hn8 (valBE_lt _) hg (by omega)]
      simp [length_toBitsBE]
    · rw [show wstateOf .le k cap D =
          { inner := some ⟨k.bytes ++ (chunkBytes .le D).1, k.fail, k.flushes⟩,
            bit_offset := (chunkBytes .le D).2.length,
            bit_buffer := valLE (chunkBytes .le D).2, cap := cap } from rfl,
        write_bits_step_le _ _ _ _ _ _ hk2 hPlen (valLE_lt _) hn1 hn8 hg,
        if_neg hcase]
      simp only [wstateOf, bufOfBits, hchunk, hlong, hdrop, List.append_nil, hdlen]
      rw [hPtake, hPdrop]
      rw [show toBits .le n g = toBitsLE n g from rfl,
        toBitsLE_take _ _ _ (by omega), toBitsLE_drop]
      simp only [valBits, valLE_append, valLE_toBitsLE,
        Nat.shiftRight_eq_div_pow]
      rw [wb_arith_le_byte _ _ _ _ hPlen hn1 hn8 (valLE_lt _) hg (by omega),
        show n - (8 - (chunkBytes .le D).2.length) = (chunkBytes .le D).2.length + n - 8
          from by omega,
        wb_arith_le_left ((chunkBytes .le D).2.length) (valLE (chunkBytes .le D).2) g n
          hPlen hn1 hn8 (valLE_lt _) hg (by omega)]
      simp [length_toBitsLE]

theorem take_append_of_le (A B : List α) (n : Nat) (h : n ≤ A.length) :
    (A ++ B).take n = A.take n := by
  rw [List.take_append_eq_append_take, Nat.sub_eq_zero_of_le h]
  simp

theorem drop_append_of_le (A B : List α) (n : Nat) (h : n ≤ A.length) :
    (A ++ B).drop n = A.drop n ++ B := by
  rw [List.drop_append_eq_append_drop, Nat.sub_eq_zero_of_le h]
  simp

theorem take_append_full (A B : List α) (n : Nat) (h : A.length ≤ n) :
    (A ++ B).take n = A ++ B.take (n - A.length) := by
  rw [List.take_append_eq_append_take, List.take_of_length_le h]

theorem drop_append_full (A B : List α) (n : Nat) (h : A.length ≤ n) :
    (A ++ B).drop n = B.drop (n - A.length) := by
  rw [List.drop_append_eq_append_drop, List.drop_eq_nil_of_le h]
  simp

/-! ## Writing a sequence of bit groups -/

/-- Write a list of (bits, count) groups with successive `write_bits` calls. -/
def writeGroups (E : Endianness) : List (Nat × Nat) → IOst BitWriter.WState Unit
  | [] => pure ()
  | gn :: rest => do
    BitWriter.write_bits E gn.1 gn.2
    writeGroups E rest

/-- Split a bit stream into the groups described by the count sequence. -/
def chunkSigma : List Nat → List Bool → List (List Bool)
  | [], _ => []
  | n :: σ, L => L.take n :: chunkSigma σ (L.drop n)

/-- Writing the σ-groups of a bit stream `L` appends `L` to the canonical
writer state. -/
theorem writeGroups_chunks (E : Endianness) (k : BitWriter.Sink) (hk : k.fail = none)
    (cap : Nat) :
    ∀ (σ : List Nat) (L D : List Bool), (∀ n ∈ σ, 1 ≤ n ∧ n ≤ 8) → σ.sum = L.length →
    writeGroups E (((chunkSigma σ L).map (valBits E)).zip σ) (wstateOf E k cap D) =
      (.ok (), wstateOf E k cap (D ++ L))
  | [], L, D, hσ, hsum => by
    have hL : L = [] := List.eq_nil_of_length_eq_zero (by simpa using hsum.symm)
    subst hL
    simp [writeGroups, chunkSigma, pure_apply]
  | n :: σ, L, D, hσ, hsum => by
    have hn := hσ n (by simp)
    have hnL : n ≤ L.length := by
      simp [List.sum_cons] at hsum
      omega
    have hlen : (L.take n).length = n := by simp; omega
    have hval : valBits E (L.take n) < 2 ^ n := by
      have := valBits_lt E (L.take n)
      rwa [hlen] at this
    have hrt : toBits E n (valBits E (L.take n)) = L.take n := by
      have := toBits_valBits E (L.take n)
      rwa [hlen] at this
    have hrec := writeGroups_chunks E k hk cap σ (L.drop n) (D ++ L.take n)
      (fun m hm => hσ m (by simp [hm])) (by simp [List.length_drop] at *; omega)
    simp only [List.zip] at hrec
    simp only [chunkSigma, List.map_cons, List.zip_cons_cons, List.zip, writeGroups,
      bind_apply,
      write_bits_wstate E k hk cap D (valBits E (L.take n)) n hn.1 hn.2 hval, hrt, hrec]
    simp [List.append_assoc, List.take_append_drop]

/-! ## Reading a sequence of bit groups -/

/-- Read a sequence of bit groups with successive `read_bits` calls. -/
def readGroups (E : Endianness) : List Nat → IOst BitReader.RState (List Nat)
  | [] => pure []
  | n :: σ => do
    let v ← BitReader.read_bits E n
    let vs ← readGroups E σ
    pure (v :: vs)

/-- Well-formedness of a reader state: the offset is in range and all bytes
are in range. -/
def RGood (r : BitReader.RState) : Prop :=
  r.bit_offset < 8 ∧ r.bit_buffer < 256 ∧ ∀ b ∈ r.src, b < 256

/-- The stream of bits still to be delivered by a reader state: the pending
bits of the partial byte followed by the bits of the remaining source. -/
def rstateBits (E : Endianness) (r : BitReader.RState) : List Bool :=
  (if r.bit_offset = 0 then []
   else match E with
     | .be => toBitsBE (8 - r.bit_offset) r.bit_buffer
     | .le => toBitsLE (8 - r.bit_offset) (r.bit_buffer >>> r.bit_offset)) ++
  streamBits E r.src

/-- `read_bits` with `1 ≤ count ≤ 8` returns the value of the next `count`
bits of the stream and leaves a state carrying the rest of the stream. -/
theorem read_bits_spec (E : Endianness) (r : BitReader.RState) (n : Nat)
    (hr : RGood r) (hn1 : 1 ≤ n) (hn8 : n ≤ 8) (hav : n ≤ (rstateBits E r).length) :
    ∃ r', BitReader.read_bits E n r =
        (.ok (valBits E ((rstateBits E r).take n)), r') ∧
      RGood r' ∧ rstateBits E r' = (rstateBits E r).drop n ∧
      r'.bit_offset = (r.bit_offset + n) % 8 ∧
      r'.src = r.src.drop ((if r.bit_offset = 0 then 1 else 0) +
        (if 8 - r.bit_offset < n then 1 else 0)) := by
  obtain ⟨src, o, raw⟩ := r
  obtain ⟨ho8, hraw, hsrc⟩ := hr
  simp only at ho8 hraw hsrc
  by_cases ho : o = 0
  · subst ho
    simp only [rstateBits, if_pos rfl, eq_self_iff_true, if_true, List.nil_append] at hav ⊢
    cases src with
    | nil => simp [streamBits] at hav; omega
    | cons b rest =>
      have hb : b < 256 := hsrc b (by simp)
      have hrest : ∀ x ∈ rest, x < 256 := fun x hx => hsrc x (by simp [hx])
      have hstream : streamBits E (b :: rest) = byteBits E b ++ streamBits E rest := rfl
      have hblen : (byteBits E b).length = 8 := length_toBits ..
      have htake : (streamBits E (b :: rest)).take n = (byteBits E b).take n := by
        rw [hstream, take_append_of_le _ _ _ (by omega)]
      have hdropS : (streamBits E (b :: rest)).drop n =
          (byteBits E b).drop n ++ streamBits E rest := by
        rw [hstream, drop_append_of_le _ _ _ (by omega)]
      cases E
      · have hdb : b / 2 ^ (8 - n) < 2 ^ n := by
          rw [Nat.div_lt_iff_lt_mul (Nat.pos_pow_of_pos _ (by omega)), ← pow_add,
            show n + (8 - n) = 8 by omega]
          omega
        have hvtake : valBits .be ((streamBits .be (b :: rest)).take n) = b / 2 ^ (8 - n) := by
          rw [htake, show byteBits .be b = toBitsBE 8 b from rfl,
            toBitsBE_take _ _ _ (by omega)]
          simp only [valBits, valBE_toBitsBE, Nat.shiftRight_eq_div_pow]
          exact Nat.mod_eq_of_lt hdb
        refine ⟨⟨rest, n % 8, b⟩, ?_, ?_, ?_, by simp, by
          have h2 : ¬ (8 - 0 < n) := by omega
          simp [h2]⟩
        · rw [read_bits_aligned_be rest b raw n hb hn1 hn8, hvtake]
        · exact ⟨Nat.mod_lt _ (by omega), hb, hrest⟩
        · rw [hdropS, show byteBits .be b = toBitsBE 8 b from rfl, toBitsBE_drop]
          rcases Nat.lt_or_ge n 8 with h | h
          · simp only [rstateBits]
            rw [if_neg (by omega), Nat.mod_eq_of_lt (by omega)]
          · have hn8' : n = 8 := by omega
            subst hn8'
            simp [rstateBits, toBitsBE]
      · have hvtake : valBits .le ((streamBits .le (b :: rest)).take n) = b % 2 ^ n := by
          rw [htake, show byteBits .le b = toBitsLE 8 b from rfl,
            toBitsLE_take _ _ _ (by omega)]
          simp [valBits, valLE_toBitsLE]
        refine ⟨⟨rest, n % 8, b⟩, ?_, ?_, ?_, by simp, by
          have h2 : ¬ (8 - 0 < n) := by omega
          simp [h2]⟩
        · rw [read_bits_aligned_le rest b raw n hb hn1 hn8, hvtake]
        · exact ⟨Nat.mod_lt _ (by omega), hb, hrest⟩
        · rw [hdropS, show byteBits .le b = toBitsLE 8 b from rfl, toBitsLE_drop]
          rcases Nat.lt_or_ge n 8 with h | h
          · simp only [rstateBits]
            rw [if_neg (by omega), Nat.mod_eq_of_lt (by omega)]
          · have hn8' : n = 8 := by omega
            subst hn8'
            simp [rstateBits, toBitsLE]
  · have ho1 : 1 ≤ o := by omega
    rcases le_or_lt n (8 - o) with hle | hgt
    · -- served from the pending bits
      cases E
      · have hptake : (rstateBits .be ⟨src, o, raw⟩).take n = toBitsBE n (raw >>> (8 - o - n)) := by
          simp only [rstateBits, if_neg ho]
          rw [take_append_of_le _ _ _ (by rw [length_toBitsBE]; omega),
            toBitsBE_take _ _ _ (by omega)]
        have hval : valBits .be (toBitsBE n (raw >>> (8 - o - n))) =
            raw % 2 ^ (8 - o) / 2 ^ (8 - o - n) := by
          simp only [valBits, valBE_toBitsBE, Nat.shiftRight_eq_div_pow]
          interval_cases o <;> interval_cases n <;> omega
        refine ⟨⟨src, (o + n) % 8, raw⟩, ?_, ?_, ?_, rfl, by
          simp [ho, Nat.not_lt.mpr hle]⟩
        · rw [read_bits_nofetch_be src o raw n ho1 ho8 hn1 hle, hptake, hval]
        · exact ⟨Nat.mod_lt _ (by omega), hraw, hsrc⟩
        · simp only [rstateBits, if_neg ho]
          rw [drop_append_of_le _ _ _ (by rw [length_toBitsBE]; omega), toBitsBE_drop]
          rcases Nat.lt_or_ge (o + n) 8 with h | h
          · rw [if_neg (by omega), Nat.mod_eq_of_lt (by omega),
              show 8 - o - n = 8 - (o + n) by omega]
          · have heq : o + n = 8 := by omega
            rw [if_pos (by omega), show 8 - o - n = 0 by omega]
            simp [toBitsBE]
      · have hptake : (rstateBits .le ⟨src, o, raw⟩).take n = toBitsLE n (raw >>> o) := by
          simp only [rstateBits, if_neg ho]
          rw [take_append_of_le _ _ _ (by rw [length_toBitsLE]; omega),
            toBitsLE_take _ _ _ (by omega)]
        have hval : valBits .le (toBitsLE n (raw >>> o)) = raw / 2 ^ o % 2 ^ n := by
          simp [valBits, valLE_toBitsLE, Nat.shiftRight_eq_div_pow]
        refine ⟨⟨src, (o + n) % 8, raw⟩, ?_, ?_, ?_, rfl, by
          simp [ho, Nat.not_lt.mpr hle]⟩
        · rw [read_bits_nofetch_le src o raw n ho1 ho8 hn1 hle, hptake, hval]
        · exact ⟨Nat.mod_lt _ (by omega), hraw, hsrc⟩
        · simp only [rstateBits, if_neg ho]
          rw [drop_append_of_le _ _ _ (by rw [length_toBitsLE]; omega), toBitsLE_drop]
          rcases Nat.lt_or_ge (o + n) 8 with h | h
          · rw [if_neg (by omega), Nat.mod_eq_of_lt (by omega),
              show 8 - o - n = 8 - (o + n) by omega, ← Nat.shiftRight_add,
              Nat.add_comm o n]
          · have heq : o + n = 8 := by omega
            rw [if_pos (by omega), show 8 - o - n = 0 by omega]
            simp [toBitsLE]
    · -- straddles the byte boundary
      cases src with
      | nil =>
        exfalso
        cases E <;>
          simp [rstateBits, if_neg ho, streamBits, length_toBitsBE, length_toBitsLE] at hav <;>
          omega
      | cons b rest =>
        have hb : b < 256 := hsrc b (by simp)
        have hrest : ∀ x ∈ rest, x < 256 := fun x hx => hsrc x (by simp [hx])
        have hm1 : 1 ≤ o + n - 8 := by omega
        have hm8 : o + n - 8 ≤ 8 := by omega
        cases E
        · have hlen1 : n ≤ (toBitsBE (8 - o) raw ++ byteBits .be b).length := by
            simp [byteBits, length_toBitsBE, length_toBits]
            omega
          have hlen2 : (toBitsBE (8 - o) raw).length ≤ n := by
            rw [length_toBitsBE]
            omega
          have htake : (rstateBits .be ⟨b :: rest, o, raw⟩).take n =
              toBitsBE (8 - o) raw ++ toBitsBE (o + n - 8) (b >>> (16 - o - n)) := by
            simp only [rstateBits, if_neg ho, streamBits]
            rw [← List.append_assoc,
              take_append_of_le _ _ _ hlen1,
              take_append_full _ _ _ hlen2,
              length_toBitsBE,
              show byteBits .be b = toBitsBE 8 b from rfl,
              toBitsBE_take _ _ _ (by omega),
              show n - (8 - o) = o + n - 8 by omega,
              show 8 - (o + n - 8) = 16 - o - n by omega]
          have hval : valBits .be (toBitsBE (8 - o) raw ++ toBitsBE (o + n - 8) (b >>> (16 - o - n))) =
              raw % 2 ^ (8 - o) * 2 ^ (o + n - 8) + b / 2 ^ (16 - o - n) := by
            simp only [valBits, valBE_append, valBE_toBitsBE, length_toBitsBE,
              Nat.shiftRight_eq_div_pow]
            have hd : b / 2 ^ (16 - o - n) < 2 ^ (o + n - 8) := by
              rw [Nat.div_lt_iff_lt_mul (Nat.pos_pow_of_pos _ (by omega)), ← pow_add,
                show o + n - 8 + (16 - o - n) = 8 by omega]
              omega
            rw [Nat.mod_eq_of_lt hd]
          refine ⟨⟨rest, o + n - 8, b⟩, ?_, ?_, ?_, by simp; omega, by
            simp [ho, hgt]⟩
          · rw [read_bits_straddle_be rest o raw b n ho1 ho8 hb hgt hn8, htake, hval]
          · exact ⟨(by omega : o + n - 8 < 8), hb, hrest⟩
          · simp only [rstateBits, if_neg ho, if_neg (by omega : ¬ (o + n - 8 = 0)), streamBits]
            rw [← List.append_assoc,
              drop_append_of_le _ _ _ hlen1,
              drop_append_full _ _ _ hlen2,
              length_toBitsBE,
              show byteBits .be b = toBitsBE 8 b from rfl, toBitsBE_drop,
              show 8 - (n - (8 - o)) = 8 - (o + n - 8) by omega]
        · have hlen1 : n ≤ (toBitsLE (8 - o) (raw >>> o) ++ byteBits .le b).length := by
            simp [byteBits, length_toBitsLE, length_toBits]
            omega
          have hlen2 : (toBitsLE (8 - o) (raw >>> o)).length ≤ n := by
            rw [length_toBitsLE]
            omega
          have htake : (rstateBits .le ⟨b :: rest, o, raw⟩).take n =
              toBitsLE (8 - o) (raw >>> o) ++ toBitsLE (o + n - 8) b := by
            simp only [rstateBits, if_neg ho, streamBits]
            rw [← List.append_assoc,
              take_append_of_le _ _ _ hlen1,
              take_append_full _ _ _ hlen2,
              length_toBitsLE,
              show byteBits .le b = toBitsLE 8 b from rfl,
              toBitsLE_take _ _ _ (by omega),
              show n - (8 - o) = o + n - 8 by omega]
          have hval : valBits .le (toBitsLE (8 - o) (raw >>> o) ++ toBitsLE (o + n - 8) b) =
              raw / 2 ^ o + 2 ^ (8 - o) * (b % 2 ^ (o + n - 8)) := by
            simp only [valBits, valLE_append, valLE_toBitsLE, length_toBitsLE,
              Nat.shiftRight_eq_div_pow]
            have hd : raw / 2 ^ o < 2 ^ (8 - o) := by
              rw [Nat.div_lt_iff_lt_mul (Nat.pos_pow_of_pos _ (by omega)), ← pow_add,
                show 8 - o + o = 8 by omega]
              omega
            rw [Nat.mod_eq_of_lt hd]
          refine ⟨⟨rest, o + n - 8, b⟩, ?_, ?_, ?_, by simp; omega, by
            simp [ho, hgt]⟩
          · rw [read_bits_straddle_le rest o raw b n ho1 ho8 hraw hb hgt hn8, htake, hval]
          · exact ⟨(by omega : o + n - 8 < 8), hb, hrest⟩
          · simp only [rstateBits, if_neg ho, if_neg (by omega : ¬ (o + n - 8 = 0)), streamBits]
            rw [← List.append_assoc,
              drop_append_of_le _ _ _ hlen1,
              drop_append_full _ _ _ hlen2,
              length_toBitsLE,
              show byteBits .le b = toBitsLE 8 b from rfl, toBitsLE_drop,
              show n - (8 - o) = o + n - 8 by omega]

/-- Reading a sequence of groups returns the σ-chunks of the stream. -/
theorem readGroups_spec (E : Endianness) :
    ∀ (σ : List Nat) (r : BitReader.RState), RGood r → (∀ n ∈ σ, 1 ≤ n ∧ n ≤ 8) →
    σ.sum ≤ (rstateBits E r).length →
    ∃ r', readGroups E σ r =
      (.ok ((chunkSigma σ (rstateBits E r)).map (valBits E)), r')
  | [], r, _, _, _ => ⟨r, by simp [readGroups, chunkSigma, pure_apply]⟩
  | n :: σ, r, hr, hσ, hsum => by
    have hn := hσ n (by simp)
    have hsum' : n + σ.sum ≤ (rstateBits E r).length := by
      simpa [List.sum_cons] using hsum
    obtain ⟨r1, hread, hr1, hbits, _, _⟩ := read_bits_spec E r n hr hn.1 hn.2 (by omega)
    obtain ⟨r2, hrec⟩ := readGroups_spec E σ r1 hr1 (fun m hm => hσ m (by simp [hm]))
      (by rw [hbits]; simp [List.length_drop]; omega)
    rw [hbits] at hrec
    refine ⟨r2, ?_⟩
    simp only [readGroups, chunkSigma, List.map_cons, bind_apply, hread, hrec, pure_apply]

/-! ## Sanity checks against the crate's own tests and doctests -/

/-- Doctest of `BitReader<BE>::read_bits`: five bits of `0xf8` are 31. -/
theorem sanity_read_bits_be_f8 :
    (BitReader.read_bits .be 5 (BitReader.new [0xf8])).1 = .ok 31 := rfl

/-- Doctest of `BitReader<LE>::read_bits`: five bits of `0xf8` are 24. -/
theorem sanity_read_bits_le_f8 :
    (BitReader.read_bits .le 5 (BitReader.new [0xf8])).1 = .ok 24 := rfl

/-- Test `tests_be::read_bits`: `0xab 0xcd` reads as `0x0a` then `0xbc`. -/
theorem sanity_read_bits_be_abcd :
    ((BitReader.read_bits .be 4 >>= fun a =>
      BitReader.read_bits .be 8 >>= fun b =>
      pure (a, b)) (BitReader.new [0xab, 0xcd])).1 = .ok (0x0a, 0xbc) := rfl

/-- Test `tests_le::read_bits`: `0xab 0xcd` reads as `0x0b` then `0xda`. -/
theorem sanity_read_bits_le_abcd :
    ((BitReader.read_bits .le 4 >>= fun a =>
      BitReader.read_bits .le 8 >>= fun b =>
      pure (a, b)) (BitReader.new [0xab, 0xcd])).1 = .ok (0x0b, 0xda) := rfl

/-- Test `tests_be::read_shifted`, middle step: with three bits of `0xaa`
consumed, a 1-byte stream read of the remaining source delivers `T`. -/
theorem sanity_read_stream_be :
    (BitReader.read .be [0] { src := [0x8c], bit_offset := 3, bit_buffer := 0xaa }).1 =
      .ok (1, [0x54]) := rfl

/-- Test `tests_le::read_shifted`, middle step: the LE byte-stream read of
one byte after three consumed bits of `0xaa` delivers `0x95`. -/
theorem sanity_read_stream_le :
    (BitReader.read .le [0] { src := [0x8c], bit_offset := 3, bit_buffer := 0xaa }).1 =
      .ok (1, [0x95]) := rfl

/-- A sink that accepts everything, starting empty. -/
def goodSink : BitWriter.Sink := { bytes := [], fail := none, flushes := 0 }

/-- A sink whose writes fail with I/O error code 7. -/
def badSink : BitWriter.Sink := { bytes := [], fail := some 7, flushes := 0 }

/-- A writer over `badSink` with one pending bit. -/
def badWriter : BitWriter.WState :=
  { inner := some badSink, bit_offset := 1, bit_buffer := 0x80, cap := 16 }

/-- Test `tests_be::write_bits`: `write_bits(0xfa, 4)` then
`write_bits(0xbc, 8)` leaves `0xab` in the sink with `0xc0` pending. -/
theorem sanity_write_bits_be :
    (BitWriter.write_bits .be 0xfa 4 >>= fun _ =>
     BitWriter.write_bits .be 0xbc 8) (BitWriter.new goodSink) =
      (.ok (), { inner := some { bytes := [0xab], fail := none, flushes := 0 },
                 bit_offset := 4, bit_buffer := 0xc0, cap := 16 }) := rfl

/-- Test `tests_le::write_bits`: `write_bits(0xfa, 4)` then
`write_bits(0xbc, 8)` leaves `0xca` in the sink with `0x0b` pending. -/
theorem sanity_write_bits_le :
    (BitWriter.write_bits .le 0xfa 4 >>= fun _ =>
     BitWriter.write_bits .le 0xbc 8) (BitWriter.new goodSink) =
      (.ok (), { inner := some { bytes := [0xca], fail := none, flushes := 0 },
                 bit_offset := 4, bit_buffer := 0x0b, cap := 16 }) := rfl

/-- Test `tests_be::write_shifted`: bits 1,0,1 then the stream write of
`Test` puts `0xaa 0x8c 0xae 0x6e` in the sink with `0x80` pending. -/
theorem sanity_write_stream_be :
    (BitWriter.write_bit .be true >>= fun _ =>
     BitWriter.write_bit .be false >>= fun _ =>
     BitWriter.write_bit .be true >>= fun _ =>
     BitWriter.write .be [0x54, 0x65, 0x73, 0x74]) (BitWriter.with_capacity 8 goodSink) =
      (.ok 4, { inner := some { bytes := [0xaa, 0x8c, 0xae, 0x6e], fail := none, flushes := 0 },
                bit_offset := 3, bit_buffer := 0x80, cap := 8 }) := rfl

/-- Test `tests_le::write_shifted`: bits 1,0,1 (LE) then the stream write
of `Test` puts `0xa5 0x2a 0x9b 0xa3` in the sink with `0x03` pending. -/
theorem sanity_write_stream_le :
    (BitWriter.write_bit .le true >>= fun _ =>
     BitWriter.write_bit .le false >>= fun _ =>
     BitWriter.write_bit .le true >>= fun _ =>
     BitWriter.write .le [0x54, 0x65, 0x73, 0x74]) (BitWriter.with_capacity 8 goodSink) =
      (.ok 4, { inner := some { bytes := [0xa5, 0x2a, 0x9b, 0xa3], fail := none, flushes := 0 },
                bit_offset := 3, bit_buffer := 0x03, cap := 8 }) := rfl

/-! ## Claim C2: write/read round trip -/

theorem bufOfBits_nil (E : Endianness) : bufOfBits E [] = 0 := by
  cases E <;> simp [bufOfBits, valBE, valLE]

/-! ## write_bit as a single-bit write -/

/-- A sequence of `write_bit` calls, one per element of the bit list. -/
def write_bit_seq (E : Endianness) : List Bool → IOst BitWriter.WState Unit
  | [] => pure ()
  | b :: rest => do
    BitWriter.write_bit E b
    write_bit_seq E rest

/-- The effect of `BitWriter::write_bit` for `BigEndian` on a canonical
writer state holding `o` pending bits of value `v` in the high bits of
`bit_buffer`: the bit joins the pending value, and the completed byte is
flushed when the offset rolls over to 0. -/
theorem write_bit_step_be (k : BitWriter.Sink) (o v cap : Nat) (b : Bool)
    (hk : k.fail = none) (ho : o < 8) (hv : v < 2 ^ o) :
    BitWriter.write_bit .be b
      { inner := some k, bit_offset := o, bit_buffer := v * 2 ^ (8 - o), cap := cap } =
    (.ok (),
      if o + 1 < 8 then
        { inner := some k, bit_offset := o + 1,
          bit_buffer := (v * 2 + b.toNat) * 2 ^ (8 - (o + 1)), cap := cap }
      else
        { inner := some { k with bytes := k.bytes ++ [v * 2 + b.toNat] },
          bit_offset := 0, bit_buffer := 0, cap := cap }) := by
  have h7 : (7 : Nat) < 8 := by omega
  have hm : ((0xff : Nat) <<< 7) % 256 = 128 := by decide
  have hmask : (128 : Nat) >>> o = 2 ^ (7 - o) := by
    rw [Nat.shiftRight_eq_div_pow]
    interval_cases o <;> decide
  have hlt : (2 : Nat) ^ (7 - o) < 2 ^ (8 - o) :=
    Nat.pow_lt_pow_right (by omega) (by omega)
  have hbuf : v * 2 ^ (8 - o) ||| 2 ^ (7 - o) = v * 2 ^ (8 - o) + 2 ^ (7 - o) :=
    lor_disjoint (8 - o) _ _ (Nat.mul_mod_left ..) hlt
  by_cases hcase : o + 1 < 8
  · have hoff : (o + 1) % 8 = o + 1 := Nat.mod_eq_of_lt hcase
    have hA : ((o + 1 : Nat) == 0) = false := by simp
    have hm1 : v * 2 ^ (8 - o) + 2 ^ (7 - o) = (v * 2 + 1) * 2 ^ (8 - (o + 1)) := by
      interval_cases o <;> omega
    have hm0 : v * 2 ^ (8 - o) = (v * 2 + 0) * 2 ^ (8 - (o + 1)) := by
      interval_cases o <;> omega
    cases b
    · simp only [BitWriter.write_bit, BitWriter.is_aligned, bind_apply, getSt_apply,
        setSt_apply, liftE_apply, pure_apply, Bool.false_eq_true, if_false,
        Bool.toNat_false, hA, if_pos hcase, hoff, hm0]
    · simp only [BitWriter.write_bit, BitWriter.is_aligned, bind_apply, getSt_apply,
        setSt_apply, liftE_apply, pure_apply, if_true, Bool.toNat_true,
        shift_msb, shift_lsb, shlU8, shrU8, if_pos h7, if_pos ho, hm, hmask, hbuf,
        hA, Bool.false_eq_true, if_false, if_pos hcase, hoff, hm1]
  · have hoff : (o + 1) % 8 = 0 := by omega
    have hbT : v * 2 ^ (8 - o) + 2 ^ (7 - o) = v * 2 + 1 := by
      interval_cases o <;> omega
    have hbF : v * 2 ^ (8 - o) = v * 2 + 0 := by
      interval_cases o <;> omega
    cases b
    · simp only [BitWriter.write_bit, BitWriter.is_aligned, BitWriter.flush_buffer,
        BitWriter.sink_write, bind_apply, getSt_apply, setSt_apply, liftE_apply,
        pure_apply, Bool.false_eq_true, if_false, Bool.toNat_false, hoff,
        beq_self_eq_true, if_true, hk, if_neg hcase, hbF]
    · simp only [BitWriter.write_bit, BitWriter.is_aligned, BitWriter.flush_buffer,
        BitWriter.sink_write, bind_apply, getSt_apply, setSt_apply, liftE_apply,
        pure_apply, Bool.toNat_true, shift_msb, shift_lsb, shlU8, shrU8,
        if_pos h7, if_pos ho, hm, hmask, hbuf, hoff, beq_self_eq_true, if_true,
        hk, if_neg hcase, hbT]

/-- The effect of `BitWriter::write_bit` for `LittleEndian` on a canonical
writer state holding `o` pending bits of value `v` in the low bits of
`bit_buffer`. -/
theorem write_bit_step_le (k : BitWriter.Sink) (o v cap : Nat) (b : Bool)
    (hk : k.fail = none) (ho : o < 8) (hv : v < 2 ^ o) :
    BitWriter.write_bit .le b
      { inner := some k, bit_offset := o, bit_buffer := v, cap := cap } =
    (.ok (),
      if o + 1 < 8 then
        { inner := some k, bit_offset := o + 1, bit_buffer := v + 2 ^ o * b.toNat,
          cap := cap }
      else
        { inner := some { k with bytes := k.bytes ++ [v + 2 ^ o * b.toNat] },
          bit_offset := 0, bit_buffer := 0, cap := cap }) := by
  have h7 : (7 : Nat) < 8 := by omega
  have hm : (0xff : Nat) >>> 7 = 1 := by decide
  have hmask : ((1 : Nat) <<< o) % 256 = 2 ^ o := by
    interval_cases o <;> decide
  have hbuf : v ||| 2 ^ o = v + 2 ^ o * 1 := by
    rw [Nat.lor_comm, lor_disjoint o _ _ (Nat.mod_self _) hv]
    ring
  have hz : v + 2 ^ o * 0 = v := by ring
  by_cases hcase : o + 1 < 8
  · have hoff : (o + 1) % 8 = o + 1 := Nat.mod_eq_of_lt hcase
    have hA : ((o + 1 : Nat) == 0) = false := by simp
    cases b
    · simp only [BitWriter.write_bit, BitWriter.is_aligned, bind_apply, getSt_apply,
        setSt_apply, liftE_apply, pure_apply, Bool.false_eq_true, if_false,
        Bool.toNat_false, hz, hA, if_pos hcase, hoff]
    · simp only [BitWriter.write_bit, BitWriter.is_aligned, bind_apply, getSt_apply,
        setSt_apply, liftE_apply, pure_apply, if_true, Bool.toNat_true,
        shift_msb, shift_lsb, shlU8, shrU8, if_pos h7, if_pos ho, hm, hmask, hbuf,
        hA, Bool.false_eq_true, if_false, if_pos hcase, hoff]
  · have hoff : (o + 1) % 8 = 0 := by omega
    cases b
    · simp only [BitWriter.write_bit, BitWriter.is_aligned, BitWriter.flush_buffer,
        BitWriter.sink_write, bind_apply, getSt_apply, setSt_apply, liftE_apply,
        pure_apply, Bool.false_eq_true, if_false, Bool.toNat_false, hz, hoff,
        beq_self_eq_true, if_true, hk, if_neg hcase]
    · simp only [BitWriter.write_bit, BitWriter.is_aligned, BitWriter.flush_buffer,
        BitWriter.sink_write, bind_apply, getSt_apply, setSt_apply, liftE_apply,
        pure_apply, Bool.toNat_true, shift_msb, shift_lsb, shlU8, shrU8,
        if_pos h7, if_pos ho, hm, hmask, hbuf, hoff, beq_self_eq_true, if_true,
        hk, if_neg hcase]

/-- A `write_bit` call on a canonical writer state appends the bit to the
written bit list. -/
theorem write_bit_wstate (E : Endianness) (k : BitWriter.Sink) (hk : k.fail = none)
    (cap : Nat) (D : List Bool) (b : Bool) :
    BitWriter.write_bit E b (wstateOf E k cap D) =
      (.ok (), wstateOf E k cap (D ++ [b])) := by
  have hPlen : (chunkBytes E D).2.length < 8 := chunkBytes_leftover_lt E D
  have hk2 : (BitWriter.Sink.mk (k.bytes ++ (chunkBytes E D).1) k.fail k.flushes).fail =
      none := hk
  have hchunk := chunkBytes_append E D [b]
  by_cases hcase : (chunkBytes E D).2.length + 1 < 8
  · have hshort : chunkBytes E ((chunkBytes E D).2 ++ [b]) =
        ([], (chunkBytes E D).2 ++ [b]) :=
      chunkBytes_short _ _ (by simp; omega)
    cases E
    · rw [show wstateOf .be k cap D =
          { inner := some ⟨k.bytes ++ (chunkBytes .be D).1, k.fail, k.flushes⟩,
            bit_offset := (chunkBytes .be D).2.length,
            bit_buffer := valBE (chunkBytes .be D).2 *
              2 ^ (8 - (chunkBytes .be D).2.length), cap := cap } from rfl,
        write_bit_step_be _ _ _ _ b hk2 hPlen (valBE_lt _), if_pos hcase]
      simp only [wstateOf, bufOfBits, hchunk, hshort, List.append_nil]
      rw [valBE_append]
      simp [valBE]
    · rw [show wstateOf .le k cap D =
          { inner := some ⟨k.bytes ++ (chunkBytes .le D).1, k.fail, k.flushes⟩,
            bit_offset := (chunkBytes .le D).2.length,
            bit_buffer := valLE (chunkBytes .le D).2, cap := cap } from rfl,
        write_bit_step_le _ _ _ _ b hk2 hPlen (valLE_lt _), if_pos hcase]
      simp only [wstateOf, bufOfBits, hchunk, hshort, List.append_nil]
      rw [valLE_append]
      simp [valLE]
  · have h8 : 8 ≤ ((chunkBytes E D).2 ++ [b]).length := by simp; omega
    have hle : ((chunkBytes E D).2 ++ [b]).length ≤ 8 := by simp; omega
    have hnil : chunkBytes E ([] : List Bool) = ([], []) :=
      chunkBytes_short E [] (by simp)
    have hlong : chunkBytes E ((chunkBytes E D).2 ++ [b]) =
        ([valBits E ((chunkBytes E D).2 ++ [b])], []) := by
      rw [chunkBytes_long E _ h8, List.take_of_length_le hle,
        List.drop_eq_nil_of_le hle, hnil]
    cases E
    · rw [show wstateOf .be k cap D =
          { inner := some ⟨k.bytes ++ (chunkBytes .be D).1, k.fail, k.flushes⟩,
            bit_offset := (chunkBytes .be D).2.length,
            bit_buffer := valBE (chunkBytes .be D).2 *
              2 ^ (8 - (chunkBytes .be D).2.length), cap := cap } from rfl,
        write_bit_step_be _ _ _ _ b hk2 hPlen (valBE_lt _), if_neg hcase]
      simp only [wstateOf, bufOfBits, hchunk, hlong, valBits]
      rw [valBE_append]
      simp [valBE, List.append_assoc]
    · rw [show wstateOf .le k cap D =
          { inner := some ⟨k.bytes ++ (chunkBytes .le D).1, k.fail, k.flushes⟩,
            bit_offset := (chunkBytes .le D).2.length,
            bit_buffer := valLE (chunkBytes .le D).2, cap := cap } from rfl,
        write_bit_step_le _ _ _ _ b hk2 hPlen (valLE_lt _), if_neg hcase]
      simp only [wstateOf, bufOfBits, hchunk, hlong, valBits]
      rw [valLE_append]
      simp [valLE, List.append_assoc]

/-- A sequence of `write_bit` calls on a canonical writer state appends the
bit list to the written bit list. -/
theorem write_bit_seq_wstate (E : Endianness) (k : BitWriter.Sink) (hk : k.fail = none)
    (cap : Nat) :
    ∀ (L D : List Bool),
      write_bit_seq E L (wstateOf E k cap D) = (.ok (), wstateOf E k cap (D ++ L))
  | [], D => by simp [write_bit_seq, pure_apply]
  | b :: L, D => by
    simp only [write_bit_seq, bind_apply, write_bit_wstate E k hk cap D b,
      write_bit_seq_wstate E k hk cap L (D ++ [b])]
    simp [List.append_assoc]

/-! ## Operation sequences and the state invariants -/

/-- Splitting a successful run of a sequenced computation. -/
theorem ok_of_bind (x : IOst σ α) (f : α → IOst σ β) (s s' : σ) (b : β)
    (h : (x >>= f) s = (.ok b, s')) :
    ∃ a s₁, x s = (.ok a, s₁) ∧ f a s₁ = (.ok b, s') := by
  rw [bind_apply] at h
  rcases hx : x s with ⟨r, s₁⟩
  rw [hx] at h
  cases r with
  | ok a => exact ⟨a, s₁, rfl, h⟩
  | error e => simp at h

/-- `write_bits` with `count > 8` panics on the `assert!` without touching
the state. -/
theorem write_bits_big (E : Endianness) (g n : Nat) (s : BitWriter.WState)
    (hn : ¬ n ≤ 8) :
    BitWriter.write_bits E g n s = (.error .panicked, s) := by
  simp only [BitWriter.write_bits, rustAssert, throwErr, bind_apply, liftE_apply,
    if_neg hn]

/-- `write_bits` with `count = 0` panics on the `bits << 8` overflowing
shift without touching the state. -/
theorem write_bits_zero (E : Endianness) (g : Nat) (s : BitWriter.WState) :
    BitWriter.write_bits E g 0 s = (.error .panicked, s) := by
  simp only [BitWriter.write_bits, rustAssert, bind_apply, getSt_apply, liftE_apply,
    pure_apply, shlU8, if_pos (by omega : (0 : Nat) ≤ 8),
    if_neg (by omega : ¬ (8 - 0 < 8))]

/-- `write_bits` only looks at the low `count` bits of `bits`. -/
theorem write_bits_mod (E : Endianness) (g n : Nat) (hn1 : 1 ≤ n) (hn8 : n ≤ 8) :
    BitWriter.write_bits E g n = BitWriter.write_bits E (g % 2 ^ n) n := by
  have h8n : 8 - n < 8 := by omega
  have hpow : (2 : Nat) ^ n * 2 ^ (8 - n) = 256 := by
    rw [← pow_add, show n + (8 - n) = 8 by omega]; norm_num
  have key : (g <<< (8 - n)) % 256 = ((g % 2 ^ n) <<< (8 - n)) % 256 := by
    rw [Nat.shiftLeft_eq, Nat.shiftLeft_eq,
      show (256 : Nat) = 2 ^ n * 2 ^ (8 - n) from hpow.symm,
      Nat.mul_mod_mul_right, Nat.mul_mod_mul_right, Nat.mod_mod_of_dvd _ dvd_rfl]
  funext s
  simp only [BitWriter.write_bits, shlU8, if_pos h8n, key]

/-- The effect of `BitWriter::align` on a writer over an accepting sink:
nothing when aligned, otherwise one byte is flushed and the offset and the
buffer are cleared. -/
theorem align_step (k : BitWriter.Sink) (o buf cap : Nat) (hk : k.fail = none) :
    BitWriter.align { inner := some k, bit_offset := o, bit_buffer := buf, cap := cap } =
    (.ok (),
      if o = 0 then
        { inner := some k, bit_offset := o, bit_buffer := buf, cap := cap }
      else
        { inner := some { k with bytes := k.bytes ++ [buf] },
          bit_offset := 0, bit_buffer := 0, cap := cap }) := by
  by_cases ho : o = 0
  · subst ho
    have hA : (!((0 : Nat) == 0) : Bool) = false := by simp
    simp only [BitWriter.align, BitWriter.is_aligned, bind_apply, getSt_apply,
      liftE_apply, pure_apply, hA, Bool.false_eq_true, if_false, if_pos rfl, if_true]
  · have hA : (!((o : Nat) == 0) : Bool) = true := by simp [ho]
    simp only [BitWriter.align, BitWriter.flush_buffer, BitWriter.sink_write,
      BitWriter.is_aligned, bind_apply, getSt_apply, setSt_apply, liftE_apply,
      pure_apply, hA, if_true, hk, if_neg ho]

theorem val_append_lt_be (o n v g : Nat) (hv : v < 2 ^ o) (hg : g < 2 ^ n) :
    v * 2 ^ n + g < 2 ^ (o + n) := by
  have h1 : v * 2 ^ n + g < (v + 1) * 2 ^ n := by
    have he : (v + 1) * 2 ^ n = v * 2 ^ n + 2 ^ n := by ring
    omega
  have h2 : (v + 1) * 2 ^ n ≤ 2 ^ o * 2 ^ n := Nat.mul_le_mul_right _ hv
  rw [pow_add]
  omega

theorem val_append_lt_le (o n v g : Nat) (hv : v < 2 ^ o) (hg : g < 2 ^ n) :
    v + 2 ^ o * g < 2 ^ (o + n) := by
  have h1 : v + 2 ^ o * g < 2 ^ o * (g + 1) := by
    have he : 2 ^ o * (g + 1) = 2 ^ o * g + 2 ^ o := by ring
    omega
  have h2 : 2 ^ o * (g + 1) ≤ 2 ^ o * 2 ^ n := Nat.mul_le_mul_left _ hg
  rw [pow_add]
  omega

/-- The writer operations of the public bit-level API. -/
inductive WOp where
  | bit (b : Bool)
  | bits (g n : Nat)
  | align

/-- Run one writer operation. -/
def runWOp (E : Endianness) : WOp → IOst BitWriter.WState Unit
  | .bit b => BitWriter.write_bit E b
  | .bits g n => BitWriter.write_bits E g n
  | .align => BitWriter.align

/-- Run a sequence of writer operations. -/
def runWOps (E : Endianness) : List WOp → IOst BitWriter.WState Unit
  | [] => pure ()
  | op :: rest => do
    runWOp E op
    runWOps E rest

/-- The pending bits of value `v` as stored in `bit_buffer`: high-order
positions for MSB-first, low-order positions for LSB-first; all other bits
are 0. -/
def pendingBuf : Endianness → Nat → Nat → Nat
  | .be, o, v => v * 2 ^ (8 - o)
  | .le, _, v => v

/-- The writer state invariant of C8: `bit_offset` in range, `bit_buffer`
clear outside the pending positions, and a sink that accepts writes. -/
def WOK (E : Endianness) (w : BitWriter.WState) : Prop :=
  w.bit_offset < 8 ∧
  (∃ v, v < 2 ^ w.bit_offset ∧ w.bit_buffer = pendingBuf E w.bit_offset v) ∧
  (∃ k, w.inner = some k ∧ k.fail = none)

/-- Each successful writer operation preserves the C8 writer invariant. -/
theorem runWOp_preserves (E : Endianness) (op : WOp) (w w' : BitWriter.WState)
    (hw : WOK E w) (h : runWOp E op w = (.ok (), w')) : WOK E w' := by
  obtain ⟨inner, o, buf, cap⟩ := w
  simp only [WOK] at hw
  obtain ⟨ho, ⟨v, hv, hbuf⟩, k, hin, hk⟩ := hw
  subst hbuf
  subst hin
  cases op with
  | bit b =>
    simp only [runWOp] at h
    cases E with
    | be =>
      rw [show pendingBuf .be o v = v * 2 ^ (8 - o) from rfl,
        write_bit_step_be k o v cap b hk ho hv] at h
      rw [Prod.mk.injEq] at h
      obtain ⟨-, hw'⟩ := h
      subst hw'
      by_cases hc : o + 1 < 8
      · rw [if_pos hc]
        simp only [WOK, pendingBuf]
        refine ⟨by omega, ⟨v * 2 + b.toNat, ?_, rfl⟩, k, rfl, hk⟩
        have hp : (2 : Nat) ^ (o + 1) = 2 ^ o * 2 := pow_succ 2 o
        cases b <;> simp [Bool.toNat] <;> omega
      · rw [if_neg hc]
        simp only [WOK, pendingBuf]
        exact ⟨by omega, ⟨0, by norm_num, by norm_num⟩,
          { k with bytes := k.bytes ++ [v * 2 + b.toNat] }, rfl, hk⟩
    | le =>
      rw [show pendingBuf .le o v = v from rfl,
        write_bit_step_le k o v cap b hk ho hv] at h
      rw [Prod.mk.injEq] at h
      obtain ⟨-, hw'⟩ := h
      subst hw'
      by_cases hc : o + 1 < 8
      · rw [if_pos hc]
        simp only [WOK, pendingBuf]
        refine ⟨by omega, ⟨v + 2 ^ o * b.toNat, ?_, rfl⟩, k, rfl, hk⟩
        have hp : (2 : Nat) ^ (o + 1) = 2 ^ o * 2 := pow_succ 2 o
        cases b <;> simp [Bool.toNat] <;> omega
      · rw [if_neg hc]
        simp only [WOK, pendingBuf]
        exact ⟨by omega, ⟨0, by norm_num, by norm_num⟩,
          { k with bytes := k.bytes ++ [v + 2 ^ o * b.toNat] }, rfl, hk⟩
  | bits g n =>
    simp only [runWOp] at h
    by_cases hn8 : n ≤ 8
    · by_cases hn0 : n = 0
      · subst hn0
        rw [write_bits_zero] at h
        simp at h
      · have hn1 : 1 ≤ n := by omega
        rw [write_bits_mod E g n hn1 hn8] at h
        have hg : g % 2 ^ n < 2 ^ n :=
          Nat.mod_lt _ (Nat.pos_pow_of_pos _ (by omega))
        cases E with
        | be =>
          rw [show pendingBuf .be o v = v * 2 ^ (8 - o) from rfl,
            write_bits_step_be k o v (g % 2 ^ n) n cap hk ho hv hn1 hn8 hg] at h
          rw [Prod.mk.injEq] at h
          obtain ⟨-, hw'⟩ := h
          subst hw'
          by_cases hc : o + n < 8
          · rw [if_pos hc]
            simp only [WOK, pendingBuf]
            exact ⟨by omega,
              ⟨v * 2 ^ n + g % 2 ^ n, val_append_lt_be o n v _ hv hg, rfl⟩,
              k, rfl, hk⟩
          · rw [if_neg hc]
            simp only [WOK, pendingBuf]
            refine ⟨by omega,
              ⟨(v * 2 ^ n + g % 2 ^ n) % 2 ^ (o + n - 8),
               Nat.mod_lt _ (Nat.pos_pow_of_pos _ (by omega)), ?_⟩,
              _, rfl, hk⟩
            have hexp : 16 - (o + n) = 8 - (o + n - 8) := by omega
            rw [hexp]
        | le =>
          rw [show pendingBuf .le o v = v from rfl,
            write_bits_step_le k o v (g % 2 ^ n) n cap hk ho hv hn1 hn8 hg] at h
          rw [Prod.mk.injEq] at h
          obtain ⟨-, hw'⟩ := h
          subst hw'
          by_cases hc : o + n < 8
          · rw [if_pos hc]
            simp only [WOK, pendingBuf]
            exact ⟨by omega,
              ⟨v + 2 ^ o * (g % 2 ^ n), val_append_lt_le o n v _ hv hg, rfl⟩,
              k, rfl, hk⟩
          · rw [if_neg hc]
            simp only [WOK, pendingBuf]
            refine ⟨by omega, ⟨(v + 2 ^ o * (g % 2 ^ n)) / 256, ?_, rfl⟩, _, rfl, hk⟩
            have hlt : v + 2 ^ o * (g % 2 ^ n) < 2 ^ (o + n) :=
              val_append_lt_le o n v _ hv hg
            have hsplit : 2 ^ (o + n - 8) * 256 = 2 ^ (o + n) := by
              rw [show (256 : Nat) = 2 ^ 8 by norm_num, ← pow_add]
              congr 1
              omega
            rw [Nat.div_lt_iff_lt_mul (by omega), hsplit]
            exact hlt
    · rw [write_bits_big E g n _ hn8] at h
      simp at h
  | align =>
    simp only [runWOp] at h
    rw [align_step k o (pendingBuf E o v) cap hk] at h
    rw [Prod.mk.injEq] at h
    obtain ⟨-, hw'⟩ := h
    subst hw'
    by_cases hc : o = 0
    · rw [if_pos hc]
      simp only [WOK]
      exact ⟨ho, ⟨v, hv, rfl⟩, k, rfl, hk⟩
    · rw [if_neg hc]
      simp only [WOK]
      exact ⟨by omega, ⟨0, by norm_num, by cases E <;> simp [pendingBuf]⟩,
        _, rfl, hk⟩

/-- A successful sequence of writer operations preserves the C8 writer
invariant. -/
theorem runWOps_preserves (E : Endianness) :
    ∀ (ops : List WOp) (w w' : BitWriter.WState),
      WOK E w → runWOps E ops w = (.ok (), w') → WOK E w'
  | [], w, w', hw, h => by
    simp only [runWOps, pure_apply, Prod.mk.injEq] at h
    exact h.2 ▸ hw
  | op :: ops, w, w', hw, h => by
    simp only [runWOps] at h
    obtain ⟨a, w₁, h1, h2⟩ := ok_of_bind _ _ _ _ _ h
    cases a
    exact runWOps_preserves E ops w₁ w' (runWOp_preserves E op w w₁ hw h1) h2

/-- Every run of `read_bit` either succeeds leaving the offset in range,
panics, or fails with the EOF I/O error leaving the state untouched. -/
theorem read_bit_classify (E : Endianness) (r : BitReader.RState) :
    (∃ v s, BitReader.read_bit E r = (.ok v, s) ∧ s.bit_offset < 8) ∨
    (∃ s, BitReader.read_bit E r = (.error .panicked, s)) ∨
    BitReader.read_bit E r = (.error (.ioError eofCode), r) := by
  obtain ⟨src, o, buf⟩ := r
  by_cases ho : o = 0
  · subst ho
    cases src with
    | nil =>
      refine .inr (.inr ?_)
      cases E <;> rfl
    | cons b rest =>
      cases E
      · exact .inl ⟨_, _, rfl, by simp⟩
      · exact .inl ⟨_, _, rfl, by simp⟩
  · have hA : ((o == 0) : Bool) = false := by simp; omega
    cases E with
    | be =>
      by_cases ho8 : o < 8
      · have hrun : BitReader.read_bit .be { src := src, bit_offset := o, bit_buffer := buf } =
            (.ok (decide (buf &&& (0x80 >>> o) ≠ 0)),
             { src := src,
               bit_offset := if (o == 7) = true then 0 else o + 1,
               bit_buffer := buf }) := by
          simp only [BitReader.read_bit, BitReader.is_aligned, BitReader.fill_buffer,
            bind_apply, getSt_apply, setSt_apply, liftE_apply, pure_apply,
            hA, Bool.false_eq_true, if_false, shrU8, if_pos ho8]
        refine .inl ⟨_, _, hrun, ?_⟩
        by_cases h7 : o = 7
        · simp [h7]
        · have h7' : ((o == 7) : Bool) = false := by simp [h7]
          simp [h7']
          omega
      · have hrun : BitReader.read_bit .be { src := src, bit_offset := o, bit_buffer := buf } =
            (.error .panicked, { src := src, bit_offset := o, bit_buffer := buf }) := by
          simp only [BitReader.read_bit, BitReader.is_aligned, BitReader.fill_buffer,
            bind_apply, getSt_apply, setSt_apply, liftE_apply, pure_apply,
            hA, Bool.false_eq_true, if_false, shrU8, if_neg ho8]
        exact .inr (.inl ⟨_, hrun⟩)
    | le =>
      by_cases ho8 : o < 8
      · have hrun : BitReader.read_bit .le { src := src, bit_offset := o, bit_buffer := buf } =
            (.ok (decide (buf &&& ((0x01 <<< o) % 256) ≠ 0)),
             { src := src,
               bit_offset := if (o == 7) = true then 0 else o + 1,
               bit_buffer := buf }) := by
          simp only [BitReader.read_bit, BitReader.is_aligned, BitReader.fill_buffer,
            bind_apply, getSt_apply, setSt_apply, liftE_apply, pure_apply,
            hA, Bool.false_eq_true, if_false, shlU8, if_pos ho8]
        refine .inl ⟨_, _, hrun, ?_⟩
        by_cases h7 : o = 7
        · simp [h7]
        · have h7' : ((o == 7) : Bool) = false := by simp [h7]
          simp [h7']
          omega
      · have hrun : BitReader.read_bit .le { src := src, bit_offset := o, bit_buffer := buf } =
            (.error .panicked, { src := src, bit_offset := o, bit_buffer := buf }) := by
          simp only [BitReader.read_bit, BitReader.is_aligned, BitReader.fill_buffer,
            bind_apply, getSt_apply, setSt_apply, liftE_apply, pure_apply,
            hA, Bool.false_eq_true, if_false, shlU8, if_neg ho8]
        exact .inr (.inl ⟨_, hrun⟩)

/-- Every run of BE `read_bits` either succeeds leaving the offset in
range, panics, or fails with the EOF I/O error leaving the state
untouched. -/
theorem read_bits_be_classify (n : Nat) (r : BitReader.RState) :
    (∃ v s, BitReader.read_bits .be n r = (.ok v, s) ∧ s.bit_offset < 8) ∨
    (∃ s, BitReader.read_bits .be n r = (.error .panicked, s)) ∨
    BitReader.read_bits .be n r = (.error (.ioError eofCode), r) := by
  obtain ⟨src, o, buf⟩ := r
  by_cases hn8 : n ≤ 8
  · by_cases ho : o = 0
    · subst ho
      cases src with
      | nil =>
        have hrun : BitReader.read_bits .be n { src := [], bit_offset := 0, bit_buffer := buf } =
            (.error (.ioError eofCode), { src := [], bit_offset := 0, bit_buffer := buf }) := by
          simp only [BitReader.read_bits, BitReader.read_bits_be, BitReader.fill_buffer,
            BitReader.is_aligned, bind_apply, getSt_apply, setSt_apply, liftE_apply,
            pure_apply, rustAssert, if_pos hn8, beq_self_eq_true, if_true]
        exact .inr (.inr hrun)
      | cons b rest =>
        by_cases hn0 : n = 0
        · have hrun : BitReader.read_bits .be n { src := b :: rest, bit_offset := 0, bit_buffer := buf } =
              (.error .panicked, { src := rest, bit_offset := 0, bit_buffer := b }) := by
            simp only [BitReader.read_bits, BitReader.read_bits_be, BitReader.fill_buffer,
              BitReader.is_aligned, bind_apply, getSt_apply, setSt_apply, liftE_apply,
              pure_apply, rustAssert, if_pos hn8, beq_self_eq_true, if_true, shlU8, shrU8,
              if_pos (show (0 : Nat) < 8 by omega),
              if_neg (show ¬ (8 - 0 < n) by omega),
              if_neg (show ¬ (8 - n < 8) by omega)]
          exact .inr (.inl ⟨_, hrun⟩)
        · have h8n : 8 - n < 8 := by omega
          have hrun : BitReader.read_bits .be n { src := b :: rest, bit_offset := 0, bit_buffer := buf } =
              (.ok (((b <<< 0) % 256) >>> (8 - n)),
               { src := rest, bit_offset := (0 + n) % 8, bit_buffer := b }) := by
            simp only [BitReader.read_bits, BitReader.read_bits_be, BitReader.fill_buffer,
              BitReader.is_aligned, bind_apply, getSt_apply, setSt_apply, liftE_apply,
              pure_apply, rustAssert, if_pos hn8, beq_self_eq_true, if_true, shlU8, shrU8,
              if_pos (show (0 : Nat) < 8 by omega),
              if_neg (show ¬ (8 - 0 < n) by omega), if_pos h8n]
          exact .inl ⟨_, _, hrun, (Nat.mod_lt _ (by omega) : (0 + n) % 8 < 8)⟩
    · have hA : ((o == 0) : Bool) = false := by simp; omega
      by_cases ho8 : o < 8
      · by_cases hstrad : 8 - o < n
        · cases src with
          | nil =>
            have hrun : BitReader.read_bits .be n { src := [], bit_offset := o, bit_buffer := buf } =
                (.error (.ioError eofCode), { src := [], bit_offset := o, bit_buffer := buf }) := by
              simp only [BitReader.read_bits, BitReader.read_bits_be, BitReader.fill_buffer,
                BitReader.is_aligned, bind_apply, getSt_apply, setSt_apply, liftE_apply,
                pure_apply, rustAssert, if_pos hn8, hA, Bool.false_eq_true, if_false,
                shlU8, shrU8, if_pos ho8, if_pos hstrad]
            exact .inr (.inr hrun)
          | cons b rest =>
            have h8o : 8 - o < 8 := by omega
            have h8n : 8 - n < 8 := by omega
            have hrun : BitReader.read_bits .be n { src := b :: rest, bit_offset := o, bit_buffer := buf } =
                (.ok ((((buf <<< o) % 256) ||| (b >>> (8 - o))) >>> (8 - n)),
                 { src := rest, bit_offset := (o + n) % 8, bit_buffer := b }) := by
              simp only [BitReader.read_bits, BitReader.read_bits_be, BitReader.fill_buffer,
                BitReader.is_aligned, bind_apply, getSt_apply, setSt_apply, liftE_apply,
                pure_apply, rustAssert, if_pos hn8, hA, Bool.false_eq_true, if_false,
                shlU8, shrU8, if_pos ho8, if_pos hstrad, if_pos h8o, if_pos h8n]
            exact .inl ⟨_, _, hrun, (Nat.mod_lt _ (by omega) : (o + n) % 8 < 8)⟩
        · by_cases hn0 : n = 0
          · have hrun : BitReader.read_bits .be n { src := src, bit_offset := o, bit_buffer := buf } =
                (.error .panicked, { src := src, bit_offset := o, bit_buffer := buf }) := by
              simp only [BitReader.read_bits, BitReader.read_bits_be, BitReader.fill_buffer,
                BitReader.is_aligned, bind_apply, getSt_apply, setSt_apply, liftE_apply,
                pure_apply, rustAssert, if_pos hn8, hA, Bool.false_eq_true, if_false,
                shlU8, shrU8, if_pos ho8, if_neg hstrad,
                if_neg (show ¬ (8 - n < 8) by omega)]
            exact .inr (.inl ⟨_, hrun⟩)
          · have h8n : 8 - n < 8 := by omega
            have hrun : BitReader.read_bits .be n { src := src, bit_offset := o, bit_buffer := buf } =
                (.ok (((buf <<< o) % 256) >>> (8 - n)),
                 { src := src, bit_offset := (o + n) % 8, bit_buffer := buf }) := by
              simp only [BitReader.read_bits, BitReader.read_bits_be, BitReader.fill_buffer,
                BitReader.is_aligned, bind_apply, getSt_apply, setSt_apply, liftE_apply,
                pure_apply, rustAssert, if_pos hn8, hA, Bool.false_eq_true, if_false,
                shlU8, shrU8, if_pos ho8, if_neg hstrad, if_pos h8n]
            exact .inl ⟨_, _, hrun, (Nat.mod_lt _ (by omega) : (o + n) % 8 < 8)⟩
      · have hrun : BitReader.read_bits .be n { src := src, bit_offset := o, bit_buffer := buf } =
            (.error .panicked, { src := src, bit_offset := o, bit_buffer := buf }) := by
          simp only [BitReader.read_bits, BitReader.read_bits_be, BitReader.fill_buffer,
            BitReader.is_aligned, bind_apply, getSt_apply, setSt_apply, liftE_apply,
            pure_apply, rustAssert, if_pos hn8, hA, Bool.false_eq_true, if_false,
            shlU8, if_neg ho8]
        exact .inr (.inl ⟨_, hrun⟩)
  · have hrun : BitReader.read_bits .be n { src := src, bit_offset := o, bit_buffer := buf } =
        (.error .panicked, { src := src, bit_offset := o, bit_buffer := buf }) := by
      simp only [BitReader.read_bits, BitReader.read_bits_be, rustAssert, throwErr,
        bind_apply, liftE_apply, if_neg hn8]
    exact .inr (.inl ⟨_, hrun⟩)

/-- Every run of LE `read_bits` either succeeds leaving the offset in
range, panics, or fails with the EOF I/O error leaving the state
untouched. -/
theorem read_bits_le_classify (n : Nat) (r : BitReader.RState) :
    (∃ v s, BitReader.read_bits .le n r = (.ok v, s) ∧ s.bit_offset < 8) ∨
    (∃ s, BitReader.read_bits .le n r = (.error .panicked, s)) ∨
    BitReader.read_bits .le n r = (.error (.ioError eofCode), r) := by
  obtain ⟨src, o, buf⟩ := r
  by_cases hn8 : n ≤ 8
  · by_cases ho : o = 0
    · subst ho
      cases src with
      | nil =>
        have hrun : BitReader.read_bits .le n { src := [], bit_offset := 0, bit_buffer := buf } =
            (.error (.ioError eofCode), { src := [], bit_offset := 0, bit_buffer := buf }) := by
          simp only [BitReader.read_bits, BitReader.read_bits_le, BitReader.fill_buffer,
            BitReader.is_aligned, bind_apply, getSt_apply, setSt_apply, liftE_apply,
            pure_apply, rustAssert, if_pos hn8, beq_self_eq_true, if_true]
        exact .inr (.inr hrun)
      | cons b rest =>
        have hcond : ((0 : Nat) : Int) + (n : Int) - 8 ≤ 0 := by omega
        have hneg : (-(((0 : Nat) : Int) + (n : Int) - 8)).toNat = 8 - n := by omega
        by_cases hn0 : n = 0
        · have hrun : BitReader.read_bits .le n { src := b :: rest, bit_offset := 0, bit_buffer := buf } =
              (.error .panicked, { src := rest, bit_offset := 0, bit_buffer := b }) := by
            simp only [BitReader.read_bits, BitReader.read_bits_le, BitReader.fill_buffer,
              BitReader.is_aligned, bind_apply, getSt_apply, setSt_apply, liftE_apply,
              pure_apply, rustAssert, if_pos hn8, beq_self_eq_true, if_true, shlU8, shrU8,
              if_pos hcond, hneg, if_neg (show ¬ (8 - n < 8) by omega)]
          exact .inr (.inl ⟨_, hrun⟩)
        · have h8n : 8 - n < 8 := by omega
          have hrun : BitReader.read_bits .le n { src := b :: rest, bit_offset := 0, bit_buffer := buf } =
              (.ok (((b <<< (8 - n)) % 256) >>> (8 - n)),
               { src := rest, bit_offset := (0 + n) % 8, bit_buffer := b }) := by
            simp only [BitReader.read_bits, BitReader.read_bits_le, BitReader.fill_buffer,
              BitReader.is_aligned, bind_apply, getSt_apply, setSt_apply, liftE_apply,
              pure_apply, rustAssert, if_pos hn8, beq_self_eq_true, if_true, shlU8, shrU8,
              if_pos hcond, hneg, if_pos h8n]
          exact .inl ⟨_, _, hrun, (Nat.mod_lt _ (by omega) : (0 + n) % 8 < 8)⟩
    · have hA : ((o == 0) : Bool) = false := by simp; omega
      by_cases hcond : ((o : Nat) : Int) + (n : Int) - 8 ≤ 0
      · have hneg : (-(((o : Nat) : Int) + (n : Int) - 8)).toNat = 8 - o - n := by omega
        have h8on : 8 - o - n < 8 := by omega
        by_cases hn0 : n = 0
        · have hrun : BitReader.read_bits .le n { src := src, bit_offset := o, bit_buffer := buf } =
              (.error .panicked, { src := src, bit_offset := o, bit_buffer := buf }) := by
            simp only [BitReader.read_bits, BitReader.read_bits_le, BitReader.fill_buffer,
              BitReader.is_aligned, bind_apply, getSt_apply, setSt_apply, liftE_apply,
              pure_apply, rustAssert, if_pos hn8, hA, Bool.false_eq_true, if_false,
              shlU8, shrU8, if_pos hcond, hneg, if_pos h8on,
              if_neg (show ¬ (8 - n < 8) by omega)]
          exact .inr (.inl ⟨_, hrun⟩)
        · have h8n : 8 - n < 8 := by omega
          have hrun : BitReader.read_bits .le n { src := src, bit_offset := o, bit_buffer := buf } =
              (.ok (((buf <<< (8 - o - n)) % 256) >>> (8 - n)),
               { src := src, bit_offset := (o + n) % 8, bit_buffer := buf }) := by
            simp only [BitReader.read_bits, BitReader.read_bits_le, BitReader.fill_buffer,
              BitReader.is_aligned, bind_apply, getSt_apply, setSt_apply, liftE_apply,
              pure_apply, rustAssert, if_pos hn8, hA, Bool.false_eq_true, if_false,
              shlU8, shrU8, if_pos hcond, hneg, if_pos h8on, if_pos h8n]
          exact .inl ⟨_, _, hrun, (Nat.mod_lt _ (by omega) : (o + n) % 8 < 8)⟩
      · have htN : (((o : Nat) : Int) + (n : Int) - 8).toNat = o + n - 8 := by omega
        by_cases hsh : o + n - 8 < 8
        · cases src with
          | nil =>
            have hrun : BitReader.read_bits .le n { src := [], bit_offset := o, bit_buffer := buf } =
                (.error (.ioError eofCode), { src := [], bit_offset := o, bit_buffer := buf }) := by
              simp only [BitReader.read_bits, BitReader.read_bits_le, BitReader.fill_buffer,
                BitReader.is_aligned, bind_apply, getSt_apply, setSt_apply, liftE_apply,
                pure_apply, rustAssert, if_pos hn8, hA, Bool.false_eq_true, if_false,
                shlU8, shrU8, if_neg hcond, htN, if_pos hsh]
            exact .inr (.inr hrun)
          | cons b rest =>
            have ht8 : ((8 : Int) - (((o : Nat) : Int) + (n : Int) - 8)).toNat =
                16 - o - n := by omega
            have h16 : 16 - o - n < 8 := by omega
            by_cases hn0 : n = 0
            · have hrun : BitReader.read_bits .le n { src := b :: rest, bit_offset := o, bit_buffer := buf } =
                  (.error .panicked, { src := rest, bit_offset := o, bit_buffer := b }) := by
                simp only [BitReader.read_bits, BitReader.read_bits_le, BitReader.fill_buffer,
                  BitReader.is_aligned, bind_apply, getSt_apply, setSt_apply, liftE_apply,
                  pure_apply, rustAssert, if_pos hn8, hA, Bool.false_eq_true, if_false,
                  shlU8, shrU8, if_neg hcond, htN, if_pos hsh, ht8, if_pos h16,
                  if_neg (show ¬ (8 - n < 8) by omega)]
              exact .inr (.inl ⟨_, hrun⟩)
            · have h8n : 8 - n < 8 := by omega
              have hrun : BitReader.read_bits .le n { src := b :: rest, bit_offset := o, bit_buffer := buf } =
                  (.ok (((buf >>> (o + n - 8)) ||| ((b <<< (16 - o - n)) % 256)) >>> (8 - n)),
                   { src := rest, bit_offset := (o + n) % 8, bit_buffer := b }) := by
                simp only [BitReader.read_bits, BitReader.read_bits_le, BitReader.fill_buffer,
                  BitReader.is_aligned, bind_apply, getSt_apply, setSt_apply, liftE_apply,
                  pure_apply, rustAssert, if_pos hn8, hA, Bool.false_eq_true, if_false,
                  shlU8, shrU8, if_neg hcond, htN, if_pos hsh, ht8, if_pos h16, if_pos h8n]
              exact .inl ⟨_, _, hrun, (Nat.mod_lt _ (by omega) : (o + n) % 8 < 8)⟩
        · have hrun : BitReader.read_bits .le n { src := src, bit_offset := o, bit_buffer := buf } =
              (.error .panicked, { src := src, bit_offset := o, bit_buffer := buf }) := by
            simp only [BitReader.read_bits, BitReader.read_bits_le, BitReader.fill_buffer,
              BitReader.is_aligned, bind_apply, getSt_apply, setSt_apply, liftE_apply,
              pure_apply, rustAssert, if_pos hn8, hA, Bool.false_eq_true, if_false,
              shlU8, shrU8, if_neg hcond, htN, if_neg hsh]
          exact .inr (.inl ⟨_, hrun⟩)
  · have hrun : BitReader.read_bits .le n { src := src, bit_offset := o, bit_buffer := buf } =
        (.error .panicked, { src := src, bit_offset := o, bit_buffer := buf }) := by
      simp only [BitReader.read_bits, BitReader.read_bits_le, rustAssert, throwErr,
        bind_apply, liftE_apply, if_neg hn8]
    exact .inr (.inl ⟨_, hrun⟩)

/-- The classification of `read_bits` runs, for both endiannesses. -/
theorem read_bits_classify (E : Endianness) (n : Nat) (r : BitReader.RState) :
    (∃ v s, BitReader.read_bits E n r = (.ok v, s) ∧ s.bit_offset < 8) ∨
    (∃ s, BitReader.read_bits E n r = (.error .panicked, s)) ∨
    BitReader.read_bits E n r = (.error (.ioError eofCode), r) := by
  cases E
  · exact read_bits_be_classify n r
  · exact read_bits_le_classify n r

/-- The reader operations of the public bit-level API. -/
inductive ROp where
  | bit
  | bits (n : Nat)
  | align

/-- Run one reader operation, discarding the value it returns. -/
def runROp (E : Endianness) : ROp → IOst BitReader.RState Unit
  | .bit => do
    let _ ← BitReader.read_bit E
    pure ()
  | .bits n => do
    let _ ← BitReader.read_bits E n
    pure ()
  | .align => do
    let s ← getSt
    setSt (BitReader.align s)

/-- Run a sequence of reader operations. -/
def runROps (E : Endianness) : List ROp → IOst BitReader.RState Unit
  | [] => pure ()
  | op :: rest => do
    runROp E op
    runROps E rest

/-- Each successful reader operation leaves `bit_offset` in range. -/
theorem runROp_offset (E : Endianness) (op : ROp) (r r' : BitReader.RState)
    (hr : r.bit_offset < 8) (h : runROp E op r = (.ok (), r')) :
    r'.bit_offset < 8 := by
  cases op with
  | bit =>
    simp only [runROp] at h
    obtain ⟨v, s₁, h1, h2⟩ := ok_of_bind _ _ _ _ _ h
    have hs : s₁ = r' := congrArg Prod.snd h2
    rcases read_bit_classify E r with ⟨v', s', hrun, hoff⟩ | ⟨s', hrun⟩ | hrun
    · rw [hrun] at h1
      rw [Prod.mk.injEq] at h1
      rw [← hs, ← h1.2]
      exact hoff
    · rw [hrun] at h1
      simp at h1
    · rw [hrun] at h1
      simp at h1
  | bits n =>
    simp only [runROp] at h
    obtain ⟨v, s₁, h1, h2⟩ := ok_of_bind _ _ _ _ _ h
    have hs : s₁ = r' := congrArg Prod.snd h2
    rcases read_bits_classify E n r with ⟨v', s', hrun, hoff⟩ | ⟨s', hrun⟩ | hrun
    · rw [hrun] at h1
      rw [Prod.mk.injEq] at h1
      rw [← hs, ← h1.2]
      exact hoff
    · rw [hrun] at h1
      simp at h1
    · rw [hrun] at h1
      simp at h1
  | align =>
    simp only [runROp, bind_apply, getSt_apply, setSt_apply] at h
    rw [Prod.mk.injEq] at h
    obtain ⟨-, hs⟩ := h
    rw [← hs]
    simp only [BitReader.align]
    omega

/-- A successful sequence of reader operations leaves `bit_offset` in
range. -/
theorem runROps_offset (E : Endianness) :
    ∀ (ops : List ROp) (r r' : BitReader.RState),
      r.bit_offset < 8 → runROps E ops r = (.ok (), r') → r'.bit_offset < 8
  | [], r, r', hr, h => by
    simp only [runROps, pure_apply, Prod.mk.injEq] at h
    exact h.2 ▸ hr
  | op :: ops, r, r', hr, h => by
    simp only [runROps] at h
    obtain ⟨a, r₁, h1, h2⟩ := ok_of_bind _ _ _ _ _ h
    cases a
    exact runROps_offset E ops r₁ r' (runROp_offset E op r r₁ hr h1) h2

/-- Claim C2 as stated is false: a count sequence is allowed to contain 0,
but `write_bits(_, 0)` computes `bits << 8` on a `u8`, an overflowing
shift, so writing the groups of `S = [0x01]` under `σ = (0, 8)` panics
instead of reconstituting `S`. -/
theorem claim_C2_counterexample :
    writeGroups .be
        (((chunkSigma [0, 8] (streamBits .be [0x01])).map (valBits .be)).zip [0, 8])
        (BitWriter.new goodSink) =
      (.error .panicked, BitWriter.new goodSink) := rfl

/-- Claim C2 (amended): for every byte sequence `S`, every endianness, and
every count sequence σ with `1 ≤ nᵢ ≤ 8` and `Σσ = 8·|S|`, writing the
σ-groups of the bit stream of `S` with `write_bits` into a fresh writer
delivers exactly the bytes `S` to the sink and leaves the writer aligned,
and reading the byte stream `S` back with `read_bits` under the same σ
yields the same groups. -/
theorem claim_C2_amended (E : Endianness) (S σ : List Nat)
    (hS : ∀ b ∈ S, b < 256) (hσ : ∀ n ∈ σ, 1 ≤ n ∧ n ≤ 8)
    (hsum : σ.sum = 8 * S.length) :
    writeGroups E (((chunkSigma σ (streamBits E S)).map (valBits E)).zip σ)
        (BitWriter.new goodSink) =
      (.ok (), { inner := some { bytes := S, fail := none, flushes := 0 },
                 bit_offset := 0, bit_buffer := 0, cap := 16 }) ∧
    ∃ r', readGroups E σ (BitReader.new S) =
      (.ok ((chunkSigma σ (streamBits E S)).map (valBits E)), r') := by
  constructor
  · have hw := writeGroups_chunks E goodSink rfl 16 σ (streamBits E S) [] hσ
      (by rw [streamBits_length]; omega)
    rw [List.nil_append] at hw
    have h0 : wstateOf E goodSink 16 [] = BitWriter.new goodSink := by
      rw [wstateOf, chunkBytes_short E [] (by simp)]
      simp [BitWriter.new, BitWriter.with_capacity, bufOfBits_nil, goodSink]
    have h1 : wstateOf E goodSink 16 (streamBits E S) =
        { inner := some { bytes := S, fail := none, flushes := 0 },
          bit_offset := 0, bit_buffer := 0, cap := 16 } := by
      rw [wstateOf, chunkBytes_stream E S hS]
      simp [bufOfBits_nil, goodSink]
    rw [← h0, hw, h1]
  · have hg : RGood (BitReader.new S) :=
      ⟨by simp [BitReader.new], by simp [BitReader.new],
       by simpa [BitReader.new] using hS⟩
    have hbits : rstateBits E (BitReader.new S) = streamBits E S := by
      simp [rstateBits, BitReader.new]
    obtain ⟨r', hr⟩ := readGroups_spec E σ (BitReader.new S) hg hσ
      (by rw [hbits, streamBits_length]; omega)
    rw [hbits] at hr
    exact ⟨r', hr⟩

/-- Witness for the amended C2 at `E = BE`, `S = [0xAB]`, `σ = (3, 5)`. -/
theorem claim_C2_amended_witness :
    writeGroups .be
        (((chunkSigma [3, 5] (streamBits .be [0xAB])).map (valBits .be)).zip [3, 5])
        (BitWriter.new goodSink) =
      (.ok (), { inner := some { bytes := [0xAB], fail := none, flushes := 0 },
                 bit_offset := 0, bit_buffer := 0, cap := 16 }) ∧
    ∃ r', readGroups .be [3, 5] (BitReader.new [0xAB]) =
      (.ok ((chunkSigma [3, 5] (streamBits .be [0xAB])).map (valBits .be)), r') :=
  claim_C2_amended .be [0xAB] [3, 5] (by decide) (by decide) (by decide)

/-! ## Claim C3: contract of read_bits -/

/-- Claim C3 as stated is false: it covers every `count ≤ 8`, but
`read_bits(0)` computes `res >>= 8 - 0`, an overflowing `u8` shift, so the
call panics instead of returning a byte with zero upper bits. -/
theorem claim_C3_counterexample :
    BitReader.read_bits .be 0 { src := [0x00], bit_offset := 0, bit_buffer := 0 } =
      (.error .panicked, { src := [], bit_offset := 0, bit_buffer := 0 }) := rfl

/-- Claim C3 (amended): for `1 ≤ count ≤ 8` and enough available bits,
`read_bits` returns the next `count` bits of the stream assembled under the
policy (BE: first-consumed bit highest, LE: first-consumed bit lowest),
with the upper `8 - count` bits zero; it consumes one extra source byte
exactly when `count > 8 - bit_offset` (plus the base fetch when aligned),
and afterwards `bit_offset = (bit_offset + count) mod 8`. -/
theorem claim_C3_amended (E : Endianness) (src : List Nat) (o raw n : Nat)
    (ho : o < 8) (hraw : raw < 256) (hsrc : ∀ b ∈ src, b < 256)
    (hn1 : 1 ≤ n) (hn8 : n ≤ 8)
    (hav : n ≤ (rstateBits E { src := src, bit_offset := o, bit_buffer := raw }).length) :
    ∃ res r',
      BitReader.read_bits E n { src := src, bit_offset := o, bit_buffer := raw } =
        (.ok res, r') ∧
      res = valBits E ((rstateBits E { src := src, bit_offset := o, bit_buffer := raw }).take n) ∧
      res < 2 ^ n ∧
      r'.bit_offset = (o + n) % 8 ∧
      r'.src = src.drop ((if o = 0 then 1 else 0) + (if 8 - o < n then 1 else 0)) := by
  obtain ⟨r', h1, _, _, h4, h5⟩ :=
    read_bits_spec E ⟨src, o, raw⟩ n ⟨ho, hraw, hsrc⟩ hn1 hn8 hav
  refine ⟨_, r', h1, rfl, ?_, h4, h5⟩
  have hlen : ((rstateBits E { src := src, bit_offset := o, bit_buffer := raw }).take n).length = n := by
    rw [List.length_take]
    omega
  have hlt := valBits_lt E ((rstateBits E { src := src, bit_offset := o, bit_buffer := raw }).take n)
  rwa [hlen] at hlt

/-- Witness for the amended C3: LE, source `0xf8`, five bits from a fresh
reader. -/
theorem claim_C3_amended_witness :
    ∃ res r',
      BitReader.read_bits .le 5 { src := [0xf8], bit_offset := 0, bit_buffer := 0 } =
        (.ok res, r') ∧
      res = valBits .le ((rstateBits .le { src := [0xf8], bit_offset := 0, bit_buffer := 0 }).take 5) ∧
      res < 2 ^ 5 ∧
      r'.bit_offset = (0 + 5) % 8 ∧
      r'.src = [0xf8].drop ((if 0 = 0 then 1 else 0) + (if 8 - 0 < 5 then 1 else 0)) :=
  claim_C3_amended .le [0xf8] 0 0 5 (by decide) (by decide) (by decide) (by decide)
    (by decide) (by decide)

/-! ## Claim C7: policy symmetry of read_bits -/

/-- Claim C7 as stated is false at `k = 0`: reading zero bits of a byte
whose low zero bits hold `v = 0` should return 0, but `read_bits(0)`
panics on an overflowing shift. -/
theorem claim_C7_counterexample :
    BitReader.read_bits .le 0 (BitReader.new [0x00]) =
      (.error .panicked, { src := [], bit_offset := 0, bit_buffer := 0 }) := rfl

/-- Claim C7 (amended): for `1 ≤ k ≤ 8`, BE reading of `k` bits from a
fresh reader over one byte returns the byte's high `k` bits, and LE
reading returns its low `k` bits. -/
theorem claim_C7_amended (k v b : Nat) (hk1 : 1 ≤ k) (hk8 : k ≤ 8) (hb : b < 256) :
    (b >>> (8 - k) = v →
      BitReader.read_bits .be k (BitReader.new [b]) =
        (.ok v, { src := [], bit_offset := k % 8, bit_buffer := b })) ∧
    (b % 2 ^ k = v →
      BitReader.read_bits .le k (BitReader.new [b]) =
        (.ok v, { src := [], bit_offset := k % 8, bit_buffer := b })) := by
  constructor
  · intro hv
    rw [show BitReader.new [b] = { src := [b], bit_offset := 0, bit_buffer := 0 } from rfl,
      read_bits_aligned_be [] b 0 k hb hk1 hk8, ← hv, Nat.shiftRight_eq_div_pow]
  · intro hv
    rw [show BitReader.new [b] = { src := [b], bit_offset := 0, bit_buffer := 0 } from rfl,
      read_bits_aligned_le [] b 0 k hb hk1 hk8, ← hv]

/-- Witness for the amended C7: `k = 5`, `b = 0xf8`: BE reads `0x1f` (the
high five bits), LE reads `0x18` (the low five bits). -/
theorem claim_C7_amended_witness :
    BitReader.read_bits .be 5 (BitReader.new [0xf8]) =
      (.ok 31, { src := [], bit_offset := 5 % 8, bit_buffer := 0xf8 }) ∧
    BitReader.read_bits .le 5 (BitReader.new [0xf8]) =
      (.ok 24, { src := [], bit_offset := 5 % 8, bit_buffer := 0xf8 }) :=
  ⟨(claim_C7_amended 5 31 0xf8 (by decide) (by decide) (by decide)).1 (by decide),
   (claim_C7_amended 5 24 0xf8 (by decide) (by decide) (by decide)).2 (by decide)⟩

/-! ## Claim C1: the unaligned byte-stream read -/

/-- Claim C1 names a code bug: the shift loop of the `Read` impl iterates
over the whole buffer instead of the first `count_read` slots.  With three
bits pending (offset 3, buffer `0xaa`), one source byte `0x8c` and a
two-slot buffer, the call returns `n = 1` but also rewrites slot 1 (with
the stale slot contents shifted in) and sets `bit_buffer` to the stale
`0x00` instead of the last raw byte `0x8c`, losing the five pending bits. -/
theorem claim_C1 :
    BitReader.read .be [0x00, 0x00]
        { src := [0x8c], bit_offset := 3, bit_buffer := 0xaa } =
      (.ok (1, [0x54, 0x60]),
       { src := [], bit_offset := 3, bit_buffer := 0x00 }) := rfl

/-! ## Claim C9: the alignment gate of get_mut -/

/-- Claim C9: `get_mut` on reader and writer panics exactly when the
wrapper is unaligned, and otherwise returns the underlying object leaving
the wrapper state untouched. -/
theorem claim_C9 (r : BitReader.RState) (w : BitWriter.WState) :
    (BitReader.get_mut r =
      (if r.bit_offset = 0 then (.ok r.src, r) else (.error .panicked, r))) ∧
    (∀ k, w.inner = some k →
      BitWriter.get_mut w =
        (if w.bit_offset = 0 then (.ok k, w) else (.error .panicked, w))) := by
  constructor
  · by_cases h : r.bit_offset = 0
    · have hA : ((r.bit_offset == 0) : Bool) = true := by simp [h]
      simp only [BitReader.get_mut, BitReader.is_aligned, bind_apply, getSt_apply,
        pure_apply, throwErr, liftE_apply, hA, Bool.not_true, Bool.false_eq_true,
        if_false, if_pos h]
    · have hA : ((r.bit_offset == 0) : Bool) = false := by simp [h]
      simp only [BitReader.get_mut, BitReader.is_aligned, bind_apply, getSt_apply,
        pure_apply, throwErr, liftE_apply, hA, Bool.not_false, if_true, if_neg h]
  · intro k hk
    by_cases h : w.bit_offset = 0
    · have hA : ((w.bit_offset == 0) : Bool) = true := by simp [h]
      simp only [BitWriter.get_mut, BitWriter.is_aligned, bind_apply, getSt_apply,
        pure_apply, throwErr, liftE_apply, hA, Bool.not_true, Bool.false_eq_true,
        if_false, if_pos h, hk]
    · have hA : ((w.bit_offset == 0) : Bool) = false := by simp [h]
      simp only [BitWriter.get_mut, BitWriter.is_aligned, bind_apply, getSt_apply,
        pure_apply, throwErr, liftE_apply, hA, Bool.not_false, if_true, if_neg h, hk]

/-- Witness for C9: a reader mid-byte panics, an aligned writer hands out
its sink. -/
theorem claim_C9_witness :
    (BitReader.get_mut { src := [0xff], bit_offset := 4, bit_buffer := 0xf0 } =
      (if (4 : Nat) = 0
        then (.ok [0xff], { src := [0xff], bit_offset := 4, bit_buffer := 0xf0 })
        else (.error .panicked, { src := [0xff], bit_offset := 4, bit_buffer := 0xf0 }))) ∧
    BitWriter.get_mut (BitWriter.new goodSink) =
      (if (BitWriter.new goodSink).bit_offset = 0
        then (.ok goodSink, BitWriter.new goodSink)
        else (.error .panicked, BitWriter.new goodSink)) :=
  ⟨(claim_C9 { src := [0xff], bit_offset := 4, bit_buffer := 0xf0 }
      (BitWriter.new goodSink)).1,
   (claim_C9 { src := [0xff], bit_offset := 4, bit_buffer := 0xf0 }
      (BitWriter.new goodSink)).2 goodSink rfl⟩

/-! ## Claim C5: the byte-stream flush -/

/-- Claim C5 as stated is false: after flushing an unaligned writer the
code clears `bit_buffer` but leaves `bit_offset` untouched, so the writer
is still unaligned (offset 1 here, where the claim demands 0). -/
theorem claim_C5_counterexample :
    BitWriter.flush { inner := some goodSink, bit_offset := 1, bit_buffer := 0x80, cap := 16 } =
      (.ok (), { inner := some { bytes := [0x80], fail := none, flushes := 1 },
                 bit_offset := 1, bit_buffer := 0, cap := 16 }) ∧
    (1 : Nat) ≠ 0 :=
  ⟨rfl, by decide⟩

/-- Claim C5 (amended): when the writer is unaligned, the byte-stream
flush writes `bit_buffer` to the sink as one padding byte and clears
`bit_buffer` but leaves `bit_offset` unchanged (the writer stays
unaligned); it then invokes the sink's own flush.  When aligned it only
invokes the sink's flush. -/
theorem claim_C5_amended (w : BitWriter.WState) (k : BitWriter.Sink)
    (hw : w.inner = some k) (hk : k.fail = none) :
    BitWriter.flush w =
      (.ok (), { w with
        inner := some { bytes := k.bytes ++ (if w.bit_offset = 0 then [] else [w.bit_buffer]),
                        fail := none, flushes := k.flushes + 1 },
        bit_buffer := if w.bit_offset = 0 then w.bit_buffer else 0 }) := by
  obtain ⟨inner, o, buf, cap⟩ := w
  simp only at hw
  subst hw
  by_cases ho : o = 0
  · subst ho
    have hA : (!((0 : Nat) == 0) : Bool) = false := by simp
    simp only [BitWriter.flush, BitWriter.flush_buffer, BitWriter.sink_write,
      BitWriter.sink_flush, BitWriter.is_aligned, bind_apply, getSt_apply, setSt_apply,
      liftE_apply, pure_apply, hA, Bool.false_eq_true, if_false, hk, if_pos rfl]
    simp [List.append_nil]
  · have hA : (!((o : Nat) == 0) : Bool) = true := by simp [ho]
    simp only [BitWriter.flush, BitWriter.flush_buffer, BitWriter.sink_write,
      BitWriter.sink_flush, BitWriter.is_aligned, bind_apply, getSt_apply, setSt_apply,
      liftE_apply, pure_apply, hA, if_true, hk, if_neg ho]

/-- Witness for the amended C5 at an unaligned writer with one pending
bit. -/
theorem claim_C5_amended_witness :
    BitWriter.flush { inner := some goodSink, bit_offset := 1, bit_buffer := 0x80, cap := 16 } =
      (.ok (), { inner := some { bytes := [0x80], fail := none, flushes := 1 },
                 bit_offset := 1, bit_buffer := 0, cap := 16 }) := by
  have h := claim_C5_amended
    { inner := some goodSink, bit_offset := 1, bit_buffer := 0x80, cap := 16 }
    goodSink rfl rfl
  simpa [goodSink] using h

/-! ## Claim C6: into_inner and its composite error -/

/-- Claim C6: `into_inner` performs the align flush first; on success it
returns the sink (with the padding byte when it was unaligned), and on
failure it returns a composite error carrying the original writer with its
state intact together with the underlying I/O error unchanged. -/
theorem claim_C6 (w : BitWriter.WState) (k : BitWriter.Sink) (hw : w.inner = some k) :
    (k.fail = none →
      BitWriter.into_inner w =
        .ok { k with bytes := k.bytes ++ (if w.bit_offset = 0 then [] else [w.bit_buffer]) }) ∧
    (∀ c, k.fail = some c → w.bit_offset ≠ 0 →
      BitWriter.into_inner w = .error (w, .ioError c)) ∧
    (w.bit_offset = 0 → BitWriter.into_inner w = .ok k) := by
  obtain ⟨inner, o, buf, cap⟩ := w
  simp only at hw
  subst hw
  refine ⟨?_, ?_, ?_⟩
  · intro hk
    by_cases ho : o = 0
    · subst ho
      have hA : (!((0 : Nat) == 0) : Bool) = false := by simp
      simp only [BitWriter.into_inner, BitWriter.align, BitWriter.flush_buffer,
        BitWriter.sink_write, BitWriter.is_aligned, bind_apply, getSt_apply, setSt_apply,
        liftE_apply, pure_apply, hA, Bool.false_eq_true, if_false, hk, if_pos rfl]
      simp [List.append_nil, ← hk]
    · have hA : (!((o : Nat) == 0) : Bool) = true := by simp [ho]
      simp only [BitWriter.into_inner, BitWriter.align, BitWriter.flush_buffer,
        BitWriter.sink_write, BitWriter.is_aligned, bind_apply, getSt_apply, setSt_apply,
        liftE_apply, pure_apply, hA, if_true, hk, if_neg ho]
  · intro c hc ho
    have hA : (!((o : Nat) == 0) : Bool) = true := by simp [ho]
    simp only [BitWriter.into_inner, BitWriter.align, BitWriter.flush_buffer,
      BitWriter.sink_write, BitWriter.is_aligned, bind_apply, getSt_apply, setSt_apply,
      liftE_apply, pure_apply, hA, if_true, hc]
  · intro ho
    subst ho
    have hA : (!((0 : Nat) == 0) : Bool) = false := by simp
    simp only [BitWriter.into_inner, BitWriter.align, BitWriter.flush_buffer,
      BitWriter.sink_write, BitWriter.is_aligned, bind_apply, getSt_apply, setSt_apply,
      liftE_apply, pure_apply, hA, Bool.false_eq_true, if_false]

/-- Witness for C6: a failing sink under one pending bit hands back the
writer untouched together with its error code; a fresh writer on a good
sink hands out the sink. -/
theorem claim_C6_witness :
    BitWriter.into_inner badWriter = .error (badWriter, .ioError 7) ∧
    BitWriter.into_inner (BitWriter.new goodSink) = .ok goodSink :=
  ⟨(claim_C6 badWriter badSink rfl).2.1 7 rfl (by decide),
   (claim_C6 (BitWriter.new goodSink) goodSink rfl).2.2 rfl⟩

/-! ## Claim C4: write_bits versus a sequence of write_bit calls -/

/-- The number of bytes the writer has delivered to its sink. -/
def sinkLen (w : BitWriter.WState) : Nat :=
  match w.inner with
  | some k => k.bytes.length
  | none => 0

/-- Claim C4 as stated is false for `LittleEndian`: `write_bits` deposits
the field's least significant bit first, not its most significant bit
first.  `write_bits(1, 2)` on a fresh LE writer leaves `bit_buffer = 1`,
while the claimed sequence of `write_bit` calls on the low two bits of `1`
taken field-MSB first (`0`, then `1`) leaves `bit_buffer = 2`. -/
theorem claim_C4_counterexample :
    BitWriter.write_bits .le 1 2 (BitWriter.new goodSink) =
      (.ok (), { inner := some goodSink, bit_offset := 2, bit_buffer := 1, cap := 16 }) ∧
    write_bit_seq .le [false, true] (BitWriter.new goodSink) =
      (.ok (), { inner := some goodSink, bit_offset := 2, bit_buffer := 2, cap := 16 }) :=
  ⟨rfl, rfl⟩

/-- Claim C4 (amended): with `1 ≤ count ≤ 8` on a canonical writer state,
`write_bits(bits, count)` has the same effect on the writer state and the
delivered byte stream as the sequence of `count` `write_bit` calls on the
low `count` bits of `bits` taken in stream order — field-MSB first for
`BigEndian` but field-LSB first for `LittleEndian`; afterwards
`bit_offset = (start + count) mod 8`, and exactly one byte is delivered to
the sink when `start + count ≥ 8` and none otherwise. -/
theorem claim_C4_amended (E : Endianness) (k : BitWriter.Sink) (hk : k.fail = none)
    (cap : Nat) (D : List Bool) (g n : Nat) (hn1 : 1 ≤ n) (hn8 : n ≤ 8)
    (hg : g < 2 ^ n) :
    BitWriter.write_bits E g n (wstateOf E k cap D) =
      write_bit_seq E (toBits E n g) (wstateOf E k cap D) ∧
    (BitWriter.write_bits E g n (wstateOf E k cap D)).2.bit_offset =
      ((wstateOf E k cap D).bit_offset + n) % 8 ∧
    sinkLen (BitWriter.write_bits E g n (wstateOf E k cap D)).2 =
      sinkLen (wstateOf E k cap D) +
        (if 8 ≤ (wstateOf E k cap D).bit_offset + n then 1 else 0) := by
  have hw := write_bits_wstate E k hk cap D g n hn1 hn8 hg
  have hs := write_bit_seq_wstate E k hk cap (toBits E n g) D
  have hPlen : (chunkBytes E D).2.length < 8 := chunkBytes_leftover_lt E D
  have hT : (toBits E n g).length = n := length_toBits ..
  have hchunk := chunkBytes_append E D (toBits E n g)
  refine ⟨hw.trans hs.symm, ?_, ?_⟩
  · rw [hw]
    simp only [wstateOf, hchunk]
    by_cases h8 : 8 ≤ (chunkBytes E D).2.length + n
    · have hlen8 : 8 ≤ ((chunkBytes E D).2 ++ toBits E n g).length := by
        simp [hT]; omega
      have hdroplen : ((((chunkBytes E D).2 ++ toBits E n g)).drop 8).length < 8 := by
        simp [hT]; omega
      have hlong := chunkBytes_long E _ hlen8
      have hshort := chunkBytes_short E _ hdroplen
      simp only [hlong, hshort]
      simp [hT]
      omega
    · have hs2 := chunkBytes_short E ((chunkBytes E D).2 ++ toBits E n g)
        (by simp [hT]; omega)
      simp only [hs2]
      simp [hT]
      omega
  · rw [hw]
    simp only [wstateOf, sinkLen, hchunk]
    by_cases h8 : 8 ≤ (chunkBytes E D).2.length + n
    · have hlen8 : 8 ≤ ((chunkBytes E D).2 ++ toBits E n g).length := by
        simp [hT]; omega
      have hdroplen : ((((chunkBytes E D).2 ++ toBits E n g)).drop 8).length < 8 := by
        simp [hT]; omega
      have hlong := chunkBytes_long E _ hlen8
      have hshort := chunkBytes_short E _ hdroplen
      simp only [hlong, hshort]
      simp [if_pos h8]
      omega
    · have hs2 := chunkBytes_short E ((chunkBytes E D).2 ++ toBits E n g)
        (by simp [hT]; omega)
      simp only [hs2]
      simp [if_neg h8]

/-- Witness for the amended C4: BE, fresh writer, value 5 in 3 bits. -/
theorem claim_C4_amended_witness :
    BitWriter.write_bits .be 5 3 (wstateOf .be goodSink 16 []) =
      write_bit_seq .be (toBits .be 3 5) (wstateOf .be goodSink 16 []) ∧
    (BitWriter.write_bits .be 5 3 (wstateOf .be goodSink 16 [])).2.bit_offset =
      ((wstateOf .be goodSink 16 []).bit_offset + 3) % 8 ∧
    sinkLen (BitWriter.write_bits .be 5 3 (wstateOf .be goodSink 16 [])).2 =
      sinkLen (wstateOf .be goodSink 16 []) +
        (if 8 ≤ (wstateOf .be goodSink 16 []).bit_offset + 3 then 1 else 0) :=
  claim_C4_amended .be goodSink rfl 16 [] 5 3 (by decide) (by decide) (by decide)

/-! ## Claim C8: alignment and buffer invariants -/

/-- Claim C8 as stated is false: after an operation whose sink write fails,
the bits of `bit_buffer` outside the pending positions need not be 0.
`write_bits(0xff, 8)` on a fresh BE writer over a failing sink returns the
I/O error but leaves `bit_buffer = 0xff` with `bit_offset = 0`: the writer
reports itself aligned — zero pending positions — while all eight buffer
bits are set. -/
theorem claim_C8_counterexample :
    BitWriter.write_bits .be 0xff 8 (BitWriter.new badSink) =
      (.error (.ioError 7),
       { inner := some badSink, bit_offset := 0, bit_buffer := 0xff, cap := 16 }) ∧
    BitWriter.is_aligned
      { inner := some badSink, bit_offset := 0, bit_buffer := 0xff, cap := 16 } = true :=
  ⟨rfl, rfl⟩

/-- Claim C8 (amended): `is_aligned` returns true exactly when
`bit_offset = 0` for both wrappers; over every sequence of
`write_bit`/`write_bits`/`align` operations that returns `Ok` — so no sink
write fails and no shift panics — a writer keeps `bit_offset < 8` and keeps
the bits of `bit_buffer` outside the `bit_offset` pending positions
(high-order for MSB-first, low-order for LSB-first) equal to 0; and a
reader keeps `bit_offset < 8` over every successful sequence of
`read_bit`/`read_bits`/`align` operations. -/
theorem claim_C8_amended (E : Endianness) :
    (∀ r : BitReader.RState, BitReader.is_aligned r = true ↔ r.bit_offset = 0) ∧
    (∀ w : BitWriter.WState, BitWriter.is_aligned w = true ↔ w.bit_offset = 0) ∧
    (∀ (ops : List WOp) (w w' : BitWriter.WState),
      WOK E w → runWOps E ops w = (.ok (), w') → WOK E w') ∧
    (∀ (ops : List ROp) (r r' : BitReader.RState),
      r.bit_offset < 8 → runROps E ops r = (.ok (), r') → r'.bit_offset < 8) := by
  refine ⟨?_, ?_, ?_, ?_⟩
  · intro r
    simp [BitReader.is_aligned]
  · intro w
    simp [BitWriter.is_aligned]
  · exact fun ops w w' => runWOps_preserves E ops w w'
  · exact fun ops r r' => runROps_offset E ops r r'

/-- Witness for the amended C8: a BE writer runs `write_bits(5, 3)`,
`write_bit(true)`, `align` and keeps the invariant; the initial state
satisfies it. -/
theorem claim_C8_amended_witness :
    WOK .be (BitWriter.new goodSink) ∧
    runWOps .be [WOp.bits 5 3, WOp.bit true, WOp.align] (BitWriter.new goodSink) =
      (.ok (), { inner := some { bytes := [0xb0], fail := none, flushes := 0 },
                 bit_offset := 0, bit_buffer := 0, cap := 16 }) ∧
    WOK .be { inner := some { bytes := [0xb0], fail := none, flushes := 0 },
              bit_offset := 0, bit_buffer := 0, cap := 16 } := by
  have hwok : WOK .be (BitWriter.new goodSink) :=
    ⟨by simp [BitWriter.new, BitWriter.with_capacity], ⟨0, by norm_num, rfl⟩,
     goodSink, rfl, rfl⟩
  exact ⟨hwok, rfl,
    (claim_C8_amended .be).2.2.1 [WOp.bits 5 3, WOp.bit true, WOp.align] _ _ hwok rfl⟩

/-! ## Claim C10: reads are atomic on I/O error -/

/-- Claim C10 (confirmed): when the underlying source fails during
`read_bit` or `read_bits` — including on the extra straddling fetch — the
reader's `bit_offset` and `bit_buffer` are unchanged from their values
before the call. -/
theorem claim_C10 (E : Endianness) (r r' : BitReader.RState) (n c : Nat)
    (h : BitReader.read_bits E n r = (.error (.ioError c), r') ∨
         BitReader.read_bit E r = (.error (.ioError c), r')) :
    r'.bit_offset = r.bit_offset ∧ r'.bit_buffer = r.bit_buffer := by
  rcases h with h | h
  · rcases read_bits_classify E n r with ⟨v, s, hrun, -⟩ | ⟨s, hrun⟩ | hrun
    · rw [hrun] at h
      simp at h
    · rw [hrun] at h
      simp at h
    · rw [hrun] at h
      rw [Prod.mk.injEq] at h
      rw [← h.2]
      exact ⟨rfl, rfl⟩
  · rcases read_bit_classify E r with ⟨v, s, hrun, -⟩ | ⟨s, hrun⟩ | hrun
    · rw [hrun] at h
      simp at h
    · rw [hrun] at h
      simp at h
    · rw [hrun] at h
      rw [Prod.mk.injEq] at h
      rw [← h.2]
      exact ⟨rfl, rfl⟩

/-- Witness for C10: a BE `read_bits(5)` on an aligned reader with an
exhausted source fails with the EOF error and changes nothing. -/
theorem claim_C10_witness :
    BitReader.read_bits .be 5 { src := [], bit_offset := 0, bit_buffer := 0x55 } =
      (.error (.ioError eofCode),
       { src := [], bit_offset := 0, bit_buffer := 0x55 }) ∧
    (({ src := [], bit_offset := 0, bit_buffer := 0x55 } : BitReader.RState).bit_offset =
        ({ src := [], bit_offset := 0, bit_buffer := 0x55 } : BitReader.RState).bit_offset ∧
     ({ src := [], bit_offset := 0, bit_buffer := 0x55 } : BitReader.RState).bit_buffer =
        ({ src := [], bit_offset := 0, bit_buffer := 0x55 } : BitReader.RState).bit_buffer) :=
  ⟨rfl, claim_C10 .be { src := [], bit_offset := 0, bit_buffer := 0x55 }
    { src := [], bit_offset := 0, bit_buffer := 0x55 } 5 eofCode (.inl rfl)⟩

end EndioBit
